import Mathlib

set_option linter.unusedSectionVars false

/-!
Verification development for the go-ordered-dict repository
(src/ordered_dict.go): a sequential shallow embedding of the ordered
dictionary, a combined hash index plus doubly linked list with sentinel
nodes.

Modelling conventions:
* Go pointers to list nodes are modelled as indices into an allocation
  arena `heap : List (Node K V)`; `&node{...}` appends a fresh node at
  index `heap.length`.  A nil pointer is `none : Option Nat`.
* The Go built-in `map[K]*node` is modelled as an association list with
  `mapGet` / `mapPut` / `mapDel` mirroring indexing, assignment and
  `delete`; `clear(m)` empties it.
* Go zero values (`var zero V`, the key/value of the sentinel nodes) are
  the `default` of an `Inhabited` instance.
* The `sync.RWMutex` field has no sequential content; the lock mode each
  public operation acquires in the source is recorded separately in the
  `lockUse1` / `lockUse2` tables below.
* The `for curr := o.head.next; curr != o.tail; curr = curr.next` walk is
  embedded with explicit fuel.  A terminating walk never visits a node
  twice (the successor of a node is a function of the node), and every
  node a walk can visit lives at an arena index in
  `[d.head, d.heap.length)`, so `d.heap.length - d.head + 1` iterations
  are enough for every walk that terminates in Go; exhausted fuel
  corresponds to a Go loop that never returns.
* `o.len` is a Go `int`; it is modelled as `Int`.

The source file concatenates two variants of the package.  Both declare
identical `node` and `OrderedDict` structs, so the Lean structures are
shared; the primary variant's methods live in the `OrderedDict`
namespace, the secondary (package `main`) variant's methods, where their
code differs from the primary, live in the `Pkg2` namespace.
-/

/-- Go struct `node[K comparable, V any]`: prev/next pointers and the
key/value payload. -/
structure Node (K V : Type) where
  prev : Option Nat
  next : Option Nat
  key  : K
  val  : V
deriving DecidableEq

instance [Inhabited K] [Inhabited V] : Inhabited (Node K V) :=
  ⟨⟨none, none, default, default⟩⟩

/-- Go struct `OrderedDict[K comparable, V any]` (the `sync.RWMutex` has no
sequential content and is omitted; see the lock tables). -/
structure OrderedDict (K V : Type) where
  heap : List (Node K V)
  data : List (K × Nat)
  head : Nat
  tail : Nat
  len  : Int
deriving DecidableEq

variable {K V : Type} [DecidableEq K] [Inhabited K] [Inhabited V]

/-- Go map read `m[key]`. -/
def mapGet : List (K × Nat) → K → Option Nat
  | [], _ => none
  | (k', i) :: rest, k => if k = k' then some i else mapGet rest k

/-- Go map write `m[key] = i` (replaces an existing entry, else appends). -/
def mapPut : List (K × Nat) → K → Nat → List (K × Nat)
  | [], k, i => [(k, i)]
  | (k', j) :: rest, k, i =>
    if k = k' then (k, i) :: rest else (k', j) :: mapPut rest k i

/-- Go map `delete(m, key)`. -/
def mapDel : List (K × Nat) → K → List (K × Nat)
  | [], _ => []
  | (k', j) :: rest, k => if k = k' then rest else (k', j) :: mapDel rest k

/-- Dereference the node pointer `i` (arena read). -/
def getNode (d : OrderedDict K V) (i : Nat) : Node K V :=
  d.heap.getD i default

/-- Overwrite the node at arena index `i`. -/
def writeNode (d : OrderedDict K V) (i : Nat) (n : Node K V) :
    OrderedDict K V :=
  { d with heap := d.heap.set i n }

/-- Assignment `p.next = q` through a valid pointer. -/
def setNext (d : OrderedDict K V) (i : Nat) (q : Option Nat) :
    OrderedDict K V :=
  writeNode d i { getNode d i with next := q }

/-- Assignment `p.prev = q` through a valid pointer. -/
def setPrev (d : OrderedDict K V) (i : Nat) (q : Option Nat) :
    OrderedDict K V :=
  writeNode d i { getNode d i with prev := q }

/-- Assignment `p.val = v` through a valid pointer. -/
def setVal (d : OrderedDict K V) (i : Nat) (v : V) : OrderedDict K V :=
  writeNode d i { getNode d i with val := v }

/-- `p.next = q` where `p` is an `Option Nat` pointer value (a nil
dereference would crash in Go; it is unreachable in the verified runs). -/
def ptrSetNext (d : OrderedDict K V) (p : Option Nat) (q : Option Nat) :
    OrderedDict K V :=
  match p with
  | some i => setNext d i q
  | none => d

/-- `p.prev = q` where `p` is an `Option Nat` pointer value. -/
def ptrSetPrev (d : OrderedDict K V) (p : Option Nat) (q : Option Nat) :
    OrderedDict K V :=
  match p with
  | some i => setPrev d i q
  | none => d

/-- `&node[K, V]{...}`: allocate a node, returning the new state and the
fresh pointer. -/
def alloc (d : OrderedDict K V) (n : Node K V) : OrderedDict K V × Nat :=
  ({ d with heap := d.heap ++ [n] }, d.heap.length)

/-- `func New[K comparable, V any]() *OrderedDict[K, V]`. -/
def New : OrderedDict K V :=
  { heap := [{ prev := none, next := some 1, key := default, val := default },
             { prev := some 0, next := none, key := default, val := default }],
    data := [], head := 0, tail := 1, len := 0 }

/-- `func NewWithCapacity[K, V](capacity int)`: the capacity is only an
allocation hint for the Go map and has no semantic content. -/
def NewWithCapacity (_capacity : Int) : OrderedDict K V :=
  New

/-- `func (o *OrderedDict[K, V]) linkToEnd(n *node[K, V])`. -/
def OrderedDict.linkToEnd (o : OrderedDict K V) (n : Nat) :
    OrderedDict K V :=
  let prevTail := (getNode o o.tail).prev
  let o1 := setPrev o n prevTail
  let o2 := setNext o1 n (some o1.tail)
  let o3 := ptrSetNext o2 prevTail (some n)
  let o4 := setPrev o3 o3.tail (some n)
  o4

/-- `func (o *OrderedDict[K, V]) linkToStart(n *node[K, V])`. -/
def OrderedDict.linkToStart (o : OrderedDict K V) (n : Nat) :
    OrderedDict K V :=
  let prevHead := (getNode o o.head).next
  let o1 := setNext o n prevHead
  let o2 := setPrev o1 n (some o1.head)
  let o3 := ptrSetPrev o2 prevHead (some n)
  let o4 := setNext o3 o3.head (some n)
  o4

/-- `func (o *OrderedDict[K, V]) linkAfter(n *node[K, V], after *node[K, V])`. -/
def OrderedDict.linkAfter (o : OrderedDict K V) (n after : Nat) :
    OrderedDict K V :=
  let afterNext := (getNode o after).next
  let o1 := setNext o n afterNext
  let o2 := setPrev o1 n (some after)
  let o3 := setNext o2 after (some n)
  let o4 := ptrSetPrev o3 afterNext (some n)
  o4

/-- `func (o *OrderedDict[K, V]) unlinkNode(n *node[K, V])`; each statement
re-reads the current heap, exactly as the Go statements do. -/
def OrderedDict.unlinkNode (o : OrderedDict K V) (n : Nat) :
    OrderedDict K V :=
  let o1 := ptrSetNext o (getNode o n).prev (getNode o n).next
  let o2 := ptrSetPrev o1 (getNode o1 n).next (getNode o1 n).prev
  o2

/-- `func (o *OrderedDict[K, V]) Set(key K, val V)`. -/
def OrderedDict.Set (o : OrderedDict K V) (key : K) (val : V) :
    OrderedDict K V :=
  match mapGet o.data key with
  | some existing => setVal o existing val
  | none =>
    let a := alloc o { prev := none, next := none, key := key, val := val }
    let o1 := a.1.linkToEnd a.2
    { o1 with data := mapPut o1.data key a.2, len := o1.len + 1 }

/-- `func (o *OrderedDict[K, V]) Get(key K) (V, bool)`. -/
def OrderedDict.Get (o : OrderedDict K V) (key : K) : V × Bool :=
  match mapGet o.data key with
  | none => (default, false)
  | some node => ((getNode o node).val, true)

/-- `func (o *OrderedDict[K, V]) Delete(key K) (V, bool)`; the returned
triple is (state, value, found). -/
def OrderedDict.Delete (o : OrderedDict K V) (key : K) :
    OrderedDict K V × V × Bool :=
  match mapGet o.data key with
  | none => (o, default, false)
  | some node =>
    let o1 := o.unlinkNode node
    let o2 := { o1 with data := mapDel o1.data key, len := o1.len - 1 }
    (o2, (getNode o2 node).val, true)

/-- `func (o *OrderedDict[K, V]) Remove(key K) bool`. -/
def OrderedDict.Remove (o : OrderedDict K V) (key : K) :
    OrderedDict K V × Bool :=
  let r := o.Delete key
  (r.1, r.2.2)

/-- `func (o *OrderedDict[K, V]) Len() int`. -/
def OrderedDict.Len (o : OrderedDict K V) : Int :=
  o.len

/-- `func (o *OrderedDict[K, V]) Has(key K) bool`. -/
def OrderedDict.Has (o : OrderedDict K V) (key : K) : Bool :=
  (mapGet o.data key).isSome

/-- The list of arena indices visited by
`for curr := start; curr != o.tail; curr = curr.next`; see the fuel
convention in the header comment. -/
def walkChain (d : OrderedDict K V) : Nat → Option Nat → List Nat
  | 0, _ => []
  | fuel + 1, p =>
    if p = some d.tail then []
    else
      match p with
      | some i => i :: walkChain d fuel (getNode d i).next
      | none => []

/-- Fuel that bounds every terminating walk (see header comment). -/
def walkFuel (d : OrderedDict K V) : Nat :=
  d.heap.length - d.head + 1

/-- `func (o *OrderedDict[K, V]) Keys() []K`. -/
def OrderedDict.Keys (o : OrderedDict K V) : List K :=
  (walkChain o (walkFuel o) (getNode o o.head).next).map
    fun i => (getNode o i).key

/-- `func (o *OrderedDict[K, V]) Values() []V`. -/
def OrderedDict.Values (o : OrderedDict K V) : List V :=
  (walkChain o (walkFuel o) (getNode o o.head).next).map
    fun i => (getNode o i).val

/-- `func (o *OrderedDict[K, V]) All() iter.Seq2[K, V]`: the sequence of
pairs the iterator yields when the consumer never stops early. -/
def OrderedDict.All (o : OrderedDict K V) : List (K × V) :=
  (walkChain o (walkFuel o) (getNode o o.head).next).map
    fun i => ((getNode o i).key, (getNode o i).val)

/-- `func (o *OrderedDict[K, V]) Clear()`. -/
def OrderedDict.Clear (o : OrderedDict K V) : OrderedDict K V :=
  let a1 := alloc o default
  let o1 := { a1.1 with head := a1.2 }
  let a2 := alloc o1 default
  let o2 := { a2.1 with tail := a2.2 }
  let o3 := setNext o2 o2.head (some o2.tail)
  let o4 := setPrev o3 o3.tail (some o3.head)
  { o4 with len := 0, data := [] }

/-- `func (o *OrderedDict[K, V]) MoveToEnd(key K) bool`. -/
def OrderedDict.MoveToEnd (o : OrderedDict K V) (key : K) :
    OrderedDict K V × Bool :=
  match mapGet o.data key with
  | none => (o, false)
  | some node => ((o.unlinkNode node).linkToEnd node, true)

/-- `func (o *OrderedDict[K, V]) MoveToStart(key K) bool`. -/
def OrderedDict.MoveToStart (o : OrderedDict K V) (key : K) :
    OrderedDict K V × Bool :=
  match mapGet o.data key with
  | none => (o, false)
  | some node => ((o.unlinkNode node).linkToStart node, true)

/-- `func (o *OrderedDict[K, V]) MoveAfter(key K, after K) bool`; the
existence check on `after` comes first, exactly as in the source. -/
def OrderedDict.MoveAfter (o : OrderedDict K V) (key after : K) :
    OrderedDict K V × Bool :=
  match mapGet o.data after with
  | none => (o, false)
  | some afterNode =>
    match mapGet o.data key with
    | none => (o, false)
    | some node => ((o.unlinkNode node).linkAfter node afterNode, true)

/-!  The secondary variant (Go package `main`, second half of
src/ordered_dict.go).  Its `node` and `OrderedDict` structs, `New`,
`NewWithCapacity`, `Get`, `Keys`, `Values` and `All` are
character-for-character the code of the primary variant and are shared;
the methods whose bodies differ are embedded here.  -/

/-- Secondary-variant `Set`: the code inlines the end-linking with its own
statement order (`o.tail.prev = n`, `lastTail.next = n`, `n.next = o.tail`,
`n.prev = lastTail`). -/
def Pkg2.Set (o : OrderedDict K V) (key : K) (val : V) : OrderedDict K V :=
  match mapGet o.data key with
  | some existing => setVal o existing val
  | none =>
    let a := alloc o { prev := none, next := none, key := key, val := val }
    let lastTail := (getNode a.1 a.1.tail).prev
    let o1 := setPrev a.1 a.1.tail (some a.2)
    let o2 := ptrSetNext o1 lastTail (some a.2)
    let o3 := setNext o2 a.2 (some o2.tail)
    let o4 := setPrev o3 a.2 lastTail
    { o4 with data := mapPut o4.data key a.2, len := o4.len + 1 }

/-- Secondary-variant `Delete`: acquires only `o.mu.RLock()` (see
`lockUse2`), and inlines the unlinking statements. -/
def Pkg2.Delete (o : OrderedDict K V) (key : K) :
    OrderedDict K V × V × Bool :=
  match mapGet o.data key with
  | none => (o, default, false)
  | some node =>
    let o1 := ptrSetNext o (getNode o node).prev (getNode o node).next
    let o2 := ptrSetPrev o1 (getNode o1 node).next (getNode o1 node).prev
    let o3 := { o2 with data := mapDel o2.data key, len := o2.len - 1 }
    (o3, (getNode o3 node).val, true)

/-- Secondary-variant `Remove` (calls the secondary `Delete`). -/
def Pkg2.Remove (o : OrderedDict K V) (key : K) : OrderedDict K V × Bool :=
  let r := Pkg2.Delete o key
  (r.1, r.2.2)

/-- Secondary-variant `Len`: reads `o.len` without taking the lock. -/
def Pkg2.Len (o : OrderedDict K V) : Int :=
  o.len

/-- Secondary-variant `Has`: implemented via `Get`. -/
def Pkg2.Has (o : OrderedDict K V) (key : K) : Bool :=
  (o.Get key).2

/-!  Lock usage, read off the `o.mu.Lock()` / `o.mu.RLock()` calls of each
public operation of the source (the sequential embedding above drops the
lock; these tables record it for the concurrency claim).  -/

/-- How an operation acquires the `sync.RWMutex`. -/
inductive LockUse where
  | shared
  | exclusive
  | noLock
deriving DecidableEq

/-- The public operations of the primary variant. -/
inductive OpName where
  | setOp | getOp | deleteOp | removeOp | lenOp | hasOp
  | keysOp | valuesOp | allOp | clearOp
  | moveToStartOp | moveToEndOp | moveAfterOp
deriving DecidableEq

/-- Lock acquisition of each primary-variant method, from the source. -/
def lockUse1 : OpName → LockUse
  | .setOp => .exclusive
  | .getOp => .shared
  | .deleteOp => .exclusive
  | .removeOp => .exclusive   -- via Delete
  | .lenOp => .shared
  | .hasOp => .shared
  | .keysOp => .shared
  | .valuesOp => .shared
  | .allOp => .shared
  | .clearOp => .exclusive
  | .moveToStartOp => .exclusive
  | .moveToEndOp => .exclusive
  | .moveAfterOp => .exclusive

/-- The public operations of the secondary variant. -/
inductive OpName2 where
  | setOp | getOp | deleteOp | removeOp | lenOp | hasOp
  | keysOp | valuesOp | allOp
deriving DecidableEq

/-- Lock acquisition of each secondary-variant method, from the source:
`Delete` calls `o.mu.RLock()`, `Len` takes no lock at all. -/
def lockUse2 : OpName2 → LockUse
  | .setOp => .exclusive
  | .getOp => .shared
  | .deleteOp => .shared      -- the source takes RLock in Delete
  | .removeOp => .shared      -- via Delete
  | .lenOp => .noLock         -- the source reads o.len with no lock
  | .hasOp => .shared         -- via Get
  | .keysOp => .shared
  | .valuesOp => .shared
  | .allOp => .shared

/-- Which operations mutate the container (claim C9's partition of the
interface); shared by both variants' operation lists. -/
def mutating : OpName2 → Bool
  | .setOp => true
  | .deleteOp => true
  | .removeOp => true
  | _ => false

/-! ### Basic facts about the heap primitives -/

@[simp] theorem writeNode_data (d : OrderedDict K V) (i : Nat) (n : Node K V) :
    (writeNode d i n).data = d.data := rfl

@[simp] theorem writeNode_head (d : OrderedDict K V) (i : Nat) (n : Node K V) :
    (writeNode d i n).head = d.head := rfl

@[simp] theorem writeNode_tail (d : OrderedDict K V) (i : Nat) (n : Node K V) :
    (writeNode d i n).tail = d.tail := rfl

@[simp] theorem writeNode_len (d : OrderedDict K V) (i : Nat) (n : Node K V) :
    (writeNode d i n).len = d.len := rfl

@[simp] theorem writeNode_heap_length (d : OrderedDict K V) (i : Nat)
    (n : Node K V) : (writeNode d i n).heap.length = d.heap.length := by
  simp [writeNode]

theorem getNode_writeNode (d : OrderedDict K V) (i j : Nat) (n : Node K V) :
    getNode (writeNode d i n) j =
      if i = j ∧ i < d.heap.length then n else getNode d j := by
  simp only [getNode, writeNode, List.getD_eq_getElem?_getD, List.getElem?_set]
  by_cases hij : i = j
  · subst hij
    by_cases hlt : i < d.heap.length
    · simp [hlt]
    · simp [hlt, List.getElem?_eq_none (le_of_not_lt hlt)]
  · simp [hij]

theorem getNode_setNext (d : OrderedDict K V) (i j : Nat) (q : Option Nat) :
    getNode (setNext d i q) j =
      if i = j ∧ i < d.heap.length then { getNode d i with next := q }
      else getNode d j := by
  simp [setNext, getNode_writeNode]

theorem getNode_setPrev (d : OrderedDict K V) (i j : Nat) (q : Option Nat) :
    getNode (setPrev d i q) j =
      if i = j ∧ i < d.heap.length then { getNode d i with prev := q }
      else getNode d j := by
  simp [setPrev, getNode_writeNode]

theorem getNode_setVal (d : OrderedDict K V) (i j : Nat) (v : V) :
    getNode (setVal d i v) j =
      if i = j ∧ i < d.heap.length then { getNode d i with val := v }
      else getNode d j := by
  simp [setVal, getNode_writeNode]

@[simp] theorem setNext_data (d : OrderedDict K V) (i : Nat) (q : Option Nat) :
    (setNext d i q).data = d.data := rfl

@[simp] theorem setPrev_data (d : OrderedDict K V) (i : Nat) (q : Option Nat) :
    (setPrev d i q).data = d.data := rfl

@[simp] theorem setNext_head (d : OrderedDict K V) (i : Nat) (q : Option Nat) :
    (setNext d i q).head = d.head := rfl

@[simp] theorem setPrev_head (d : OrderedDict K V) (i : Nat) (q : Option Nat) :
    (setPrev d i q).head = d.head := rfl

@[simp] theorem setNext_tail (d : OrderedDict K V) (i : Nat) (q : Option Nat) :
    (setNext d i q).tail = d.tail := rfl

@[simp] theorem setPrev_tail (d : OrderedDict K V) (i : Nat) (q : Option Nat) :
    (setPrev d i q).tail = d.tail := rfl

@[simp] theorem setNext_len (d : OrderedDict K V) (i : Nat) (q : Option Nat) :
    (setNext d i q).len = d.len := rfl

@[simp] theorem setPrev_len (d : OrderedDict K V) (i : Nat) (q : Option Nat) :
    (setPrev d i q).len = d.len := rfl

@[simp] theorem setNext_heap_length (d : OrderedDict K V) (i : Nat)
    (q : Option Nat) : (setNext d i q).heap.length = d.heap.length := by
  simp [setNext]

@[simp] theorem setPrev_heap_length (d : OrderedDict K V) (i : Nat)
    (q : Option Nat) : (setPrev d i q).heap.length = d.heap.length := by
  simp [setPrev]

/-- Pointer-field writes never change the key of any node. -/
theorem key_setNext (d : OrderedDict K V) (i j : Nat) (q : Option Nat) :
    (getNode (setNext d i q) j).key = (getNode d j).key := by
  rw [getNode_setNext]; split
  · next h => rw [h.1]
  · rfl

theorem key_setPrev (d : OrderedDict K V) (i j : Nat) (q : Option Nat) :
    (getNode (setPrev d i q) j).key = (getNode d j).key := by
  rw [getNode_setPrev]; split
  · next h => rw [h.1]
  · rfl

theorem val_setNext (d : OrderedDict K V) (i j : Nat) (q : Option Nat) :
    (getNode (setNext d i q) j).val = (getNode d j).val := by
  rw [getNode_setNext]; split
  · next h => rw [h.1]
  · rfl

theorem val_setPrev (d : OrderedDict K V) (i j : Nat) (q : Option Nat) :
    (getNode (setPrev d i q) j).val = (getNode d j).val := by
  rw [getNode_setPrev]; split
  · next h => rw [h.1]
  · rfl

theorem key_setVal (d : OrderedDict K V) (i j : Nat) (v : V) :
    (getNode (setVal d i v) j).key = (getNode d j).key := by
  rw [getNode_setVal]; split
  · next h => rw [h.1]
  · rfl

/-! ### The list-shape invariant -/

/-- Nodes `u` and `v` are properly doubly linked neighbours. -/
def linkRel (d : OrderedDict K V) (u v : Nat) : Prop :=
  (getNode d u).next = some v ∧ (getNode d v).prev = some u

instance (d : OrderedDict K V) (u v : Nat) : Decidable (linkRel d u v) := by
  unfold linkRel; infer_instance

/-- Every two consecutive entries of `l` are properly doubly linked. -/
def linksOk (d : OrderedDict K V) : List Nat → Prop
  | x :: y :: rest => linkRel d x y ∧ linksOk d (y :: rest)
  | _ => True

instance linksOkDec (d : OrderedDict K V) :
    (l : List Nat) → Decidable (linksOk d l)
  | [] => .isTrue trivial
  | [_] => .isTrue trivial
  | x :: y :: rest =>
    haveI := linksOkDec d (y :: rest)
    inferInstanceAs (Decidable (linkRel d x y ∧ linksOk d (y :: rest)))

@[simp] theorem linksOk_nil (d : OrderedDict K V) : linksOk d [] := trivial

@[simp] theorem linksOk_single (d : OrderedDict K V) (x : Nat) :
    linksOk d [x] := trivial

@[simp] theorem linksOk_cons_cons (d : OrderedDict K V) (x y : Nat)
    (rest : List Nat) :
    linksOk d (x :: y :: rest) ↔ linkRel d x y ∧ linksOk d (y :: rest) :=
  Iff.rfl

/-- Splitting `linksOk` at a list append. -/
theorem linksOk_append (d : OrderedDict K V) (l₁ l₂ : List Nat) :
    linksOk d (l₁ ++ l₂) ↔
      linksOk d l₁ ∧ linksOk d l₂ ∧
        ∀ u ∈ l₁.getLast?, ∀ v ∈ l₂.head?, linkRel d u v := by
  induction l₁ with
  | nil => simp
  | cons x t ih =>
    cases t with
    | nil =>
      cases l₂ with
      | nil => simp
      | cons y l₂ => simp [and_comm]
    | cons z t =>
      have hl : (x :: z :: t).getLast? = (z :: t).getLast? :=
        List.getLast?_cons_cons
      constructor
      · rintro ⟨h1, h2⟩
        rcases ih.mp h2 with ⟨ha, hb, hc⟩
        exact ⟨⟨h1, ha⟩, hb, by simpa [hl] using hc⟩
      · rintro ⟨⟨h1, ha⟩, hb, hc⟩
        exact ⟨h1, ih.mpr ⟨ha, hb, by simpa [hl] using hc⟩⟩

/-- `linksOk` transfers to a modified heap as long as every doubly linked
pair inside the list stays doubly linked. -/
theorem linksOk_congr (d d' : OrderedDict K V) (l : List Nat) :
    (∀ u ∈ l, ∀ v ∈ l, linkRel d u v → linkRel d' u v) →
      linksOk d l → linksOk d' l := by
  induction l with
  | nil => intro _ _; trivial
  | cons x t ih =>
    intro h hl
    cases t with
    | nil => trivial
    | cons y rest =>
      refine ⟨h x (by simp) y (by simp) hl.1, ?_⟩
      exact ih (fun u hu v hv huv =>
        h u (List.mem_cons_of_mem x hu) v (List.mem_cons_of_mem x hv) huv) hl.2

/-- The full node sequence of the order list: head sentinel, data nodes,
tail sentinel. -/
def chainList (d : OrderedDict K V) (ids : List Nat) : List Nat :=
  d.head :: ids ++ [d.tail]

/-- The keys along a list of node indices. -/
def chainKeys (d : OrderedDict K V) (ids : List Nat) : List K :=
  ids.map fun i => (getNode d i).key

/-- The values along a list of node indices. -/
def chainVals (d : OrderedDict K V) (ids : List Nat) : List V :=
  ids.map fun i => (getNode d i).val

/-- Well-formedness: `ids` lists the arena indices of the data nodes in
list order; the chain is properly doubly linked, node indices are distinct
valid arena addresses at or after the current head sentinel, the index
`data` is exactly the key-to-node map of the chain with no duplicate keys,
and `len` is the number of data nodes. -/
def WF (d : OrderedDict K V) (ids : List Nat) : Prop :=
  linksOk d (chainList d ids) ∧
  (chainList d ids).Nodup ∧
  (∀ x ∈ chainList d ids, d.head ≤ x ∧ x < d.heap.length) ∧
  d.data.Perm (ids.map fun i => ((getNode d i).key, i)) ∧
  (d.data.map Prod.fst).Nodup ∧
  d.len = (ids.length : Int)

instance (d : OrderedDict K V) (ids : List Nat) : Decidable (WF d ids) := by
  unfold WF; infer_instance

theorem WF.links {d : OrderedDict K V} {ids : List Nat} (h : WF d ids) :
    linksOk d (chainList d ids) := h.1

theorem WF.nodup {d : OrderedDict K V} {ids : List Nat} (h : WF d ids) :
    (chainList d ids).Nodup := h.2.1

theorem WF.bounds {d : OrderedDict K V} {ids : List Nat} (h : WF d ids) :
    ∀ x ∈ chainList d ids, d.head ≤ x ∧ x < d.heap.length := h.2.2.1

theorem WF.dataPerm {d : OrderedDict K V} {ids : List Nat} (h : WF d ids) :
    d.data.Perm (ids.map fun i => ((getNode d i).key, i)) := h.2.2.2.1

theorem WF.dataNodup {d : OrderedDict K V} {ids : List Nat} (h : WF d ids) :
    (d.data.map Prod.fst).Nodup := h.2.2.2.2.1

theorem WF.lenEq {d : OrderedDict K V} {ids : List Nat} (h : WF d ids) :
    d.len = (ids.length : Int) := h.2.2.2.2.2

/-- A freshly constructed dictionary is well formed with no data nodes. -/
theorem wf_New : WF (New : OrderedDict K V) [] := by
  refine ⟨?_, ?_, ?_, ?_, ?_, ?_⟩ <;>
    simp [New, chainList, linksOk, linkRel, getNode]

/-- A Nodup list of naturals inside `[a, b)` has at most `b - a` entries. -/
theorem nodup_bounded_length (l : List Nat) (a b : Nat) (hn : l.Nodup)
    (hb : ∀ x ∈ l, a ≤ x ∧ x < b) : l.length ≤ b - a := by
  classical
  have h1 : l.toFinset ⊆ Finset.Ico a b := by
    intro x hx
    rw [List.mem_toFinset] at hx
    rw [Finset.mem_Ico]
    exact hb x hx
  have h2 := Finset.card_le_card h1
  rwa [List.toFinset_card_of_nodup hn, Nat.card_Ico] at h2

/-- The fueled walk follows a properly linked chain exactly. -/
theorem walkChain_spec (d : OrderedDict K V) (ids : List Nat) :
    ∀ (x fuel : Nat), linksOk d (x :: ids ++ [d.tail]) → d.tail ∉ ids →
      ids.length < fuel → walkChain d fuel (getNode d x).next = ids := by
  induction ids with
  | nil =>
    intro x fuel hok _ hfuel
    obtain ⟨⟨h1, _⟩, _⟩ := hok
    cases fuel with
    | zero => omega
    | succ f => simp [walkChain, h1]
  | cons y ys ih =>
    intro x fuel hok ht hfuel
    obtain ⟨⟨h1, _⟩, hrest⟩ := hok
    cases fuel with
    | zero => omega
    | succ f =>
      have hy : ¬((some y : Option Nat) = some d.tail) := by
        simp only [Option.some.injEq]
        intro h
        exact ht (h ▸ List.mem_cons_self y ys)
      rw [h1]
      show (if (some y : Option Nat) = some d.tail then []
        else y :: walkChain d f (getNode d y).next) = y :: ys
      rw [if_neg hy]
      have := ih y f hrest (fun h => ht (List.mem_cons_of_mem y h))
        (by simpa using Nat.lt_of_succ_lt_succ hfuel)
      rw [this]

/-- On a well-formed state the walk visits exactly the data-node chain. -/
theorem walk_eq (d : OrderedDict K V) (ids : List Nat) (h : WF d ids) :
    walkChain d (walkFuel d) (getNode d d.head).next = ids := by
  have hlen : (chainList d ids).length ≤ d.heap.length - d.head :=
    nodup_bounded_length _ _ _ h.nodup h.bounds
  have hlen2 : (chainList d ids).length = ids.length + 2 := by
    simp [chainList]
  apply walkChain_spec d ids d.head (walkFuel d) h.links
  · intro hmem
    have hn := h.nodup
    rw [chainList] at hn
    have hn2 : (ids ++ [d.tail]).Nodup := (List.nodup_cons.mp hn).2
    exact (List.disjoint_of_nodup_append hn2) hmem (by simp)
  · unfold walkFuel
    omega

theorem Keys_eq (d : OrderedDict K V) (ids : List Nat) (h : WF d ids) :
    d.Keys = chainKeys d ids := by
  unfold OrderedDict.Keys chainKeys
  rw [walk_eq d ids h]

theorem Values_eq (d : OrderedDict K V) (ids : List Nat) (h : WF d ids) :
    d.Values = chainVals d ids := by
  unfold OrderedDict.Values chainVals
  rw [walk_eq d ids h]

theorem All_eq (d : OrderedDict K V) (ids : List Nat) (h : WF d ids) :
    d.All = ids.map fun i => ((getNode d i).key, (getNode d i).val) := by
  unfold OrderedDict.All
  rw [walk_eq d ids h]

/-! ### Facts about the association-list model of the Go map -/

theorem mapGet_mem {m : List (K × Nat)} {k : K} {i : Nat}
    (h : mapGet m k = some i) : (k, i) ∈ m := by
  induction m with
  | nil => simp [mapGet] at h
  | cons p rest ih =>
    obtain ⟨k', j⟩ := p
    rw [mapGet] at h
    by_cases hk : k = k'
    · rw [if_pos hk] at h
      have hji : j = i := by simpa using h
      subst hji; subst hk
      exact List.mem_cons_self _ _
    · rw [if_neg hk] at h
      exact List.mem_cons_of_mem _ (ih h)

theorem mapGet_eq_none_iff {m : List (K × Nat)} {k : K} :
    mapGet m k = none ↔ k ∉ m.map Prod.fst := by
  induction m with
  | nil => simp [mapGet]
  | cons p rest ih =>
    obtain ⟨k', j⟩ := p
    by_cases hk : k = k' <;> simp [mapGet, hk, ih]

theorem mapGet_eq_some_of_mem {m : List (K × Nat)} {k : K} {i : Nat}
    (hn : (m.map Prod.fst).Nodup) (h : (k, i) ∈ m) : mapGet m k = some i := by
  induction m with
  | nil => simp at h
  | cons p rest ih =>
    obtain ⟨k', j⟩ := p
    simp only [List.map_cons, List.nodup_cons] at hn
    rcases List.mem_cons.mp h with heq | hmem
    · obtain ⟨rfl, rfl⟩ := Prod.mk.injEq .. ▸ heq
      simp [mapGet]
    · have hk : k ≠ k' := by
        rintro rfl
        exact hn.1 (List.mem_map_of_mem Prod.fst hmem)
      rw [mapGet, if_neg hk]
      exact ih hn.2 hmem

theorem mapPut_absent {m : List (K × Nat)} {k : K} (i : Nat)
    (h : mapGet m k = none) : mapPut m k i = m ++ [(k, i)] := by
  induction m with
  | nil => simp [mapPut]
  | cons p rest ih =>
    obtain ⟨k', j⟩ := p
    rw [mapGet] at h
    by_cases hk : k = k'
    · rw [if_pos hk] at h; exact absurd h (by simp)
    · rw [if_neg hk] at h
      rw [mapPut, if_neg hk, ih h]
      simp

theorem mapDel_eq_filter {m : List (K × Nat)} {k : K}
    (hn : (m.map Prod.fst).Nodup) :
    mapDel m k = m.filter fun p => decide (p.1 ≠ k) := by
  induction m with
  | nil => simp [mapDel]
  | cons p rest ih =>
    obtain ⟨k', j⟩ := p
    simp only [List.map_cons, List.nodup_cons] at hn
    rw [mapDel, List.filter_cons]
    by_cases hk : k = k'
    · subst hk
      rw [if_pos rfl]
      have hd : (decide ((k, j).1 ≠ k)) = false := by simp
      rw [hd]
      simp only [Bool.false_eq_true, if_false]
      rw [eq_comm, List.filter_eq_self]
      intro a ha
      simp only [ne_eq, decide_eq_true_eq]
      intro hak
      exact hn.1 (hak ▸ List.mem_map_of_mem Prod.fst ha)
    · have hd : (decide ((k', j).1 ≠ k)) = true := by
        simp only [ne_eq, decide_eq_true_eq]
        exact fun h => hk h.symm
      rw [if_neg hk, hd]
      simp only [if_true]
      rw [ih hn.2]

/-! ### Observation lemmas on well-formed states -/

/-- On a well-formed state, looking a key up in the index finds exactly
the chain node carrying that key. -/
theorem mapGet_some_iff (d : OrderedDict K V) (ids : List Nat)
    (h : WF d ids) (k : K) (i : Nat) :
    mapGet d.data k = some i ↔ i ∈ ids ∧ (getNode d i).key = k := by
  constructor
  · intro hg
    have hmem := mapGet_mem hg
    have hmem2 := h.dataPerm.mem_iff.mp hmem
    obtain ⟨j, hj, hji⟩ := List.mem_map.mp hmem2
    obtain ⟨hkey, rfl⟩ := Prod.mk.injEq .. ▸ hji
    exact ⟨hj, hkey⟩
  · rintro ⟨hi, rfl⟩
    apply mapGet_eq_some_of_mem h.dataNodup
    exact h.dataPerm.mem_iff.mpr (List.mem_map_of_mem _ hi)

/-- On a well-formed state, the keys of the index are exactly the chain
keys (as a permutation, hence as sets). -/
theorem dataKeys_perm (d : OrderedDict K V) (ids : List Nat)
    (h : WF d ids) : (d.data.map Prod.fst).Perm (chainKeys d ids) := by
  have := h.dataPerm.map Prod.fst
  simpa [chainKeys, List.map_map, Function.comp] using this

theorem mapGet_none_iff (d : OrderedDict K V) (ids : List Nat)
    (h : WF d ids) (k : K) :
    mapGet d.data k = none ↔ k ∉ chainKeys d ids := by
  rw [mapGet_eq_none_iff, (dataKeys_perm d ids h).mem_iff]

theorem Has_iff (d : OrderedDict K V) (ids : List Nat) (h : WF d ids)
    (k : K) : d.Has k = true ↔ k ∈ chainKeys d ids := by
  unfold OrderedDict.Has
  rcases hg : mapGet d.data k with _ | i
  · simp only [Option.isSome_none, Bool.false_eq_true, false_iff]
    exact (mapGet_none_iff d ids h k).mp hg
  · simp only [Option.isSome_some, true_iff]
    obtain ⟨hi, hkey⟩ := (mapGet_some_iff d ids h k i).mp hg
    exact hkey ▸ List.mem_map_of_mem _ hi

/-- The keys along a well-formed chain are distinct. -/
theorem chainKeys_nodup (d : OrderedDict K V) (ids : List Nat)
    (h : WF d ids) : (chainKeys d ids).Nodup :=
  (dataKeys_perm d ids h).nodup h.dataNodup

/-! ### Concrete executions exhibiting the MoveAfter(k, k) corruption -/

/-- The dictionary 1 maps to 10, 2 maps to 20, 3 maps to 30, inserted in that
order (the shape of the TestMoveAfterSameKey scenario of the test suite). -/
def dEx : OrderedDict Nat Nat :=
  ((New.Set 1 10).Set 2 20).Set 3 30

/-- The example dictionary is well formed: its data nodes sit at arena
indices 2, 3, 4 in order. -/
theorem wf_dEx : WF dEx [2, 3, 4] := by decide

/-- Claim C1, evaluated on the failing input: after `Set 1 10`, `Set 2 20`,
`Set 3 30`, the call `MoveAfter 2 2` returns true, and afterwards the
stored count is 3 and the index holds 3 entries, but walking the order
list from head to tail visits only 2 data nodes — the claimed 1:1
agreement of index, order walk and count does not survive a self-target
MoveAfter.  (The moved node is left linked to itself and unreachable from
the head sentinel.) -/
theorem C1_moveAfter_self_breaks_invariant :
    (dEx.MoveAfter 2 2).2 = true ∧
    (dEx.MoveAfter 2 2).1.Len = 3 ∧
    (dEx.MoveAfter 2 2).1.data.length = 3 ∧
    ((dEx.MoveAfter 2 2).1.Keys).length = 2 := by decide

/-- Claim C2, evaluated on the failing input: `MoveAfter 2 2` on the
dictionary with keys 1, 2, 3 returns true but does not leave the
observable state unchanged: `Keys` shrinks from [1, 2, 3] to [1, 3] (and
`Values` from [10, 20, 30] to [10, 30]) even though the key is still in
the index (`Has 2`, `Get 2` and `Len` still answer as before). -/
theorem C2_moveAfter_self_changes_observations :
    dEx.Keys = [1, 2, 3] ∧
    dEx.Values = [10, 20, 30] ∧
    (dEx.MoveAfter 2 2).2 = true ∧
    (dEx.MoveAfter 2 2).1.Keys = [1, 3] ∧
    (dEx.MoveAfter 2 2).1.Values = [10, 30] ∧
    (dEx.MoveAfter 2 2).1.Has 2 = true ∧
    (dEx.MoveAfter 2 2).1.Get 2 = (20, true) ∧
    (dEx.MoveAfter 2 2).1.Len = 3 := by decide

/-- Claim C9, evaluated on the source's lock table: the secondary
variant's `Delete` acquires the reader/writer lock only in shared mode
(`RLock`) although it mutates the container (shown by evaluating it on a
concrete dictionary), and its `Len` reads the count under no lock at all;
the primary variant does follow the claimed discipline (exclusive for the
mutating operations, shared for the readers). -/
theorem C9_secondary_variant_lock_modes :
    lockUse2 OpName2.deleteOp = LockUse.shared ∧
    mutating OpName2.deleteOp = true ∧
    (Pkg2.Delete dEx 2).1 ≠ dEx ∧
    lockUse2 OpName2.lenOp = LockUse.noLock ∧
    lockUse1 OpName.setOp = LockUse.exclusive ∧
    lockUse1 OpName.deleteOp = LockUse.exclusive ∧
    lockUse1 OpName.removeOp = LockUse.exclusive ∧
    lockUse1 OpName.clearOp = LockUse.exclusive ∧
    lockUse1 OpName.moveToStartOp = LockUse.exclusive ∧
    lockUse1 OpName.moveToEndOp = LockUse.exclusive ∧
    lockUse1 OpName.moveAfterOp = LockUse.exclusive ∧
    lockUse1 OpName.getOp = LockUse.shared ∧
    lockUse1 OpName.hasOp = LockUse.shared ∧
    lockUse1 OpName.lenOp = LockUse.shared ∧
    lockUse1 OpName.keysOp = LockUse.shared ∧
    lockUse1 OpName.valuesOp = LockUse.shared ∧
    lockUse1 OpName.allOp = LockUse.shared := by decide

/-! ### Heap surgery: what each link operation does, node by node -/

@[simp] theorem ptrSetNext_data (d : OrderedDict K V) (p q : Option Nat) :
    (ptrSetNext d p q).data = d.data := by cases p <;> rfl

@[simp] theorem ptrSetPrev_data (d : OrderedDict K V) (p q : Option Nat) :
    (ptrSetPrev d p q).data = d.data := by cases p <;> rfl

@[simp] theorem ptrSetNext_head (d : OrderedDict K V) (p q : Option Nat) :
    (ptrSetNext d p q).head = d.head := by cases p <;> rfl

@[simp] theorem ptrSetPrev_head (d : OrderedDict K V) (p q : Option Nat) :
    (ptrSetPrev d p q).head = d.head := by cases p <;> rfl

@[simp] theorem ptrSetNext_tail (d : OrderedDict K V) (p q : Option Nat) :
    (ptrSetNext d p q).tail = d.tail := by cases p <;> rfl

@[simp] theorem ptrSetPrev_tail (d : OrderedDict K V) (p q : Option Nat) :
    (ptrSetPrev d p q).tail = d.tail := by cases p <;> rfl

@[simp] theorem ptrSetNext_len (d : OrderedDict K V) (p q : Option Nat) :
    (ptrSetNext d p q).len = d.len := by cases p <;> rfl

@[simp] theorem ptrSetPrev_len (d : OrderedDict K V) (p q : Option Nat) :
    (ptrSetPrev d p q).len = d.len := by cases p <;> rfl

@[simp] theorem ptrSetNext_heap_length (d : OrderedDict K V)
    (p q : Option Nat) : (ptrSetNext d p q).heap.length = d.heap.length := by
  cases p <;> simp [ptrSetNext]

@[simp] theorem ptrSetPrev_heap_length (d : OrderedDict K V)
    (p q : Option Nat) : (ptrSetPrev d p q).heap.length = d.heap.length := by
  cases p <;> simp [ptrSetPrev]

theorem key_ptrSetNext (d : OrderedDict K V) (p q : Option Nat) (j : Nat) :
    (getNode (ptrSetNext d p q) j).key = (getNode d j).key := by
  cases p <;> simp [ptrSetNext, key_setNext]

theorem key_ptrSetPrev (d : OrderedDict K V) (p q : Option Nat) (j : Nat) :
    (getNode (ptrSetPrev d p q) j).key = (getNode d j).key := by
  cases p <;> simp [ptrSetPrev, key_setPrev]

theorem val_ptrSetNext (d : OrderedDict K V) (p q : Option Nat) (j : Nat) :
    (getNode (ptrSetNext d p q) j).val = (getNode d j).val := by
  cases p <;> simp [ptrSetNext, val_setNext]

theorem val_ptrSetPrev (d : OrderedDict K V) (p q : Option Nat) (j : Nat) :
    (getNode (ptrSetPrev d p q) j).val = (getNode d j).val := by
  cases p <;> simp [ptrSetPrev, val_setPrev]

/-- Unlinking and relinking never change any node's key. -/
theorem key_unlinkNode (d : OrderedDict K V) (i j : Nat) :
    (getNode (d.unlinkNode i) j).key = (getNode d j).key := by
  unfold OrderedDict.unlinkNode
  rw [key_ptrSetPrev, key_ptrSetNext]

theorem val_unlinkNode (d : OrderedDict K V) (i j : Nat) :
    (getNode (d.unlinkNode i) j).val = (getNode d j).val := by
  unfold OrderedDict.unlinkNode
  rw [val_ptrSetPrev, val_ptrSetNext]

theorem key_linkToEnd (d : OrderedDict K V) (i j : Nat) :
    (getNode (d.linkToEnd i) j).key = (getNode d j).key := by
  unfold OrderedDict.linkToEnd
  rw [key_setPrev, key_ptrSetNext, key_setNext, key_setPrev]

theorem val_linkToEnd (d : OrderedDict K V) (i j : Nat) :
    (getNode (d.linkToEnd i) j).val = (getNode d j).val := by
  unfold OrderedDict.linkToEnd
  rw [val_setPrev, val_ptrSetNext, val_setNext, val_setPrev]

theorem key_linkToStart (d : OrderedDict K V) (i j : Nat) :
    (getNode (d.linkToStart i) j).key = (getNode d j).key := by
  unfold OrderedDict.linkToStart
  rw [key_setNext, key_ptrSetPrev, key_setPrev, key_setNext]

theorem val_linkToStart (d : OrderedDict K V) (i j : Nat) :
    (getNode (d.linkToStart i) j).val = (getNode d j).val := by
  unfold OrderedDict.linkToStart
  rw [val_setNext, val_ptrSetPrev, val_setPrev, val_setNext]

theorem key_linkAfter (d : OrderedDict K V) (i a j : Nat) :
    (getNode (d.linkAfter i a) j).key = (getNode d j).key := by
  unfold OrderedDict.linkAfter
  rw [key_ptrSetPrev, key_setNext, key_setPrev, key_setNext]

theorem val_linkAfter (d : OrderedDict K V) (i a j : Nat) :
    (getNode (d.linkAfter i a) j).val = (getNode d j).val := by
  unfold OrderedDict.linkAfter
  rw [val_ptrSetPrev, val_setNext, val_setPrev, val_setNext]

@[simp] theorem unlinkNode_data (d : OrderedDict K V) (i : Nat) :
    (d.unlinkNode i).data = d.data := by
  unfold OrderedDict.unlinkNode; simp

@[simp] theorem unlinkNode_head (d : OrderedDict K V) (i : Nat) :
    (d.unlinkNode i).head = d.head := by
  unfold OrderedDict.unlinkNode; simp

@[simp] theorem unlinkNode_tail (d : OrderedDict K V) (i : Nat) :
    (d.unlinkNode i).tail = d.tail := by
  unfold OrderedDict.unlinkNode; simp

@[simp] theorem unlinkNode_len (d : OrderedDict K V) (i : Nat) :
    (d.unlinkNode i).len = d.len := by
  unfold OrderedDict.unlinkNode; simp

@[simp] theorem unlinkNode_heap_length (d : OrderedDict K V) (i : Nat) :
    (d.unlinkNode i).heap.length = d.heap.length := by
  unfold OrderedDict.unlinkNode; simp

@[simp] theorem linkToEnd_data (d : OrderedDict K V) (i : Nat) :
    (d.linkToEnd i).data = d.data := by
  unfold OrderedDict.linkToEnd; simp

@[simp] theorem linkToEnd_head (d : OrderedDict K V) (i : Nat) :
    (d.linkToEnd i).head = d.head := by
  unfold OrderedDict.linkToEnd; simp

@[simp] theorem linkToEnd_tail (d : OrderedDict K V) (i : Nat) :
    (d.linkToEnd i).tail = d.tail := by
  unfold OrderedDict.linkToEnd; simp

@[simp] theorem linkToEnd_len (d : OrderedDict K V) (i : Nat) :
    (d.linkToEnd i).len = d.len := by
  unfold OrderedDict.linkToEnd; simp

@[simp] theorem linkToEnd_heap_length (d : OrderedDict K V) (i : Nat) :
    (d.linkToEnd i).heap.length = d.heap.length := by
  unfold OrderedDict.linkToEnd; simp

@[simp] theorem linkToStart_data (d : OrderedDict K V) (i : Nat) :
    (d.linkToStart i).data = d.data := by
  unfold OrderedDict.linkToStart; simp

@[simp] theorem linkToStart_head (d : OrderedDict K V) (i : Nat) :
    (d.linkToStart i).head = d.head := by
  unfold OrderedDict.linkToStart; simp

@[simp] theorem linkToStart_tail (d : OrderedDict K V) (i : Nat) :
    (d.linkToStart i).tail = d.tail := by
  unfold OrderedDict.linkToStart; simp

@[simp] theorem linkToStart_len (d : OrderedDict K V) (i : Nat) :
    (d.linkToStart i).len = d.len := by
  unfold OrderedDict.linkToStart; simp

@[simp] theorem linkToStart_heap_length (d : OrderedDict K V) (i : Nat) :
    (d.linkToStart i).heap.length = d.heap.length := by
  unfold OrderedDict.linkToStart; simp

@[simp] theorem linkAfter_data (d : OrderedDict K V) (i a : Nat) :
    (d.linkAfter i a).data = d.data := by
  unfold OrderedDict.linkAfter; simp

@[simp] theorem linkAfter_head (d : OrderedDict K V) (i a : Nat) :
    (d.linkAfter i a).head = d.head := by
  unfold OrderedDict.linkAfter; simp

@[simp] theorem linkAfter_tail (d : OrderedDict K V) (i a : Nat) :
    (d.linkAfter i a).tail = d.tail := by
  unfold OrderedDict.linkAfter; simp

@[simp] theorem linkAfter_len (d : OrderedDict K V) (i a : Nat) :
    (d.linkAfter i a).len = d.len := by
  unfold OrderedDict.linkAfter; simp

@[simp] theorem linkAfter_heap_length (d : OrderedDict K V) (i a : Nat) :
    (d.linkAfter i a).heap.length = d.heap.length := by
  unfold OrderedDict.linkAfter; simp

/-- Reading the arena after an allocation. -/
theorem getNode_alloc (d : OrderedDict K V) (n : Node K V) (j : Nat) :
    getNode (alloc d n).1 j =
      if j = d.heap.length then n else getNode d j := by
  unfold alloc getNode
  by_cases hj : j = d.heap.length
  · subst hj
    simp [List.getD_eq_getElem?_getD, List.getElem?_concat_length]
  · rcases Nat.lt_or_ge j d.heap.length with hlt | hge
    · simp [List.getD_eq_getElem?_getD, List.getElem?_append, hlt, hj]
    · have hgt : d.heap.length < j := lt_of_le_of_ne hge (Ne.symm hj)
      simp only [hj, if_false]
      rw [List.getD_eq_getElem?_getD, List.getD_eq_getElem?_getD,
        List.getElem?_eq_none, List.getElem?_eq_none]
      · omega
      · simp; omega

/-- The effect of `unlinkNode` on a node with valid distinct neighbours:
the predecessor is bridged to the successor; no other node changes (in
particular the unlinked node keeps its own pointers, as in Go). -/
theorem getNode_unlinkNode (d : OrderedDict K V) {i pre nx : Nat}
    (hpre : (getNode d i).prev = some pre) (hnx : (getNode d i).next = some nx)
    (hpi : pre ≠ i) (hni : nx ≠ i) (hpn : pre ≠ nx)
    (hpreLt : pre < d.heap.length) (hnxLt : nx < d.heap.length) :
    ∀ j, getNode (d.unlinkNode i) j =
      if j = pre then { getNode d pre with next := some nx }
      else if j = nx then { getNode d nx with prev := some pre }
      else getNode d j := by
  intro j
  unfold OrderedDict.unlinkNode
  rw [hpre, hnx]
  simp only [ptrSetNext]
  have h1 : getNode (setNext d pre (some nx)) i = getNode d i := by
    rw [getNode_setNext, if_neg]
    rintro ⟨h, -⟩
    exact hpi h
  rw [h1, hnx, hpre]
  simp only [ptrSetPrev]
  rw [getNode_setPrev]
  simp only [setNext_heap_length]
  by_cases hjp : j = pre
  · subst hjp
    rw [if_neg, if_pos rfl, getNode_setNext, if_pos ⟨rfl, hpreLt⟩]
    rintro ⟨h, -⟩
    exact hpn h.symm
  · by_cases hjn : j = nx
    · subst hjn
      rw [if_pos ⟨rfl, hnxLt⟩, if_neg hjp, if_pos rfl, getNode_setNext,
        if_neg]
      rintro ⟨h, -⟩
      exact hpn h
    · rw [if_neg, if_neg hjp, if_neg hjn, getNode_setNext, if_neg]
      · rintro ⟨h, -⟩
        exact hjp h.symm
      · rintro ⟨h, -⟩
        exact hjn h.symm

theorem getNode_setNext_ne (d : OrderedDict K V) {i j : Nat} (h : i ≠ j)
    (q : Option Nat) : getNode (setNext d i q) j = getNode d j := by
  rw [getNode_setNext, if_neg]
  rintro ⟨h', -⟩
  exact h h'

theorem getNode_setPrev_ne (d : OrderedDict K V) {i j : Nat} (h : i ≠ j)
    (q : Option Nat) : getNode (setPrev d i q) j = getNode d j := by
  rw [getNode_setPrev, if_neg]
  rintro ⟨h', -⟩
  exact h h'

theorem getNode_setNext_self (d : OrderedDict K V) {i : Nat}
    (h : i < d.heap.length) (q : Option Nat) :
    getNode (setNext d i q) i = { getNode d i with next := q } := by
  rw [getNode_setNext, if_pos ⟨rfl, h⟩]

theorem getNode_setPrev_self (d : OrderedDict K V) {i : Nat}
    (h : i < d.heap.length) (q : Option Nat) :
    getNode (setPrev d i q) i = { getNode d i with prev := q } := by
  rw [getNode_setPrev, if_pos ⟨rfl, h⟩]

theorem getNode_setVal_ne (d : OrderedDict K V) {i j : Nat} (h : i ≠ j)
    (v : V) : getNode (setVal d i v) j = getNode d j := by
  rw [getNode_setVal, if_neg]
  rintro ⟨h', -⟩
  exact h h'

theorem getNode_setVal_self (d : OrderedDict K V) {i : Nat}
    (h : i < d.heap.length) (v : V) :
    getNode (setVal d i v) i = { getNode d i with val := v } := by
  rw [getNode_setVal, if_pos ⟨rfl, h⟩]

/-- The effect of `linkToEnd`: the node is spliced in between the last
node `L` (the tail sentinel's previous neighbour) and the tail sentinel. -/
theorem getNode_linkToEnd (d : OrderedDict K V) {i L : Nat}
    (hL : (getNode d d.tail).prev = some L)
    (hLi : L ≠ i) (hti : d.tail ≠ i) (hLt : L ≠ d.tail)
    (hiLt : i < d.heap.length) (hLLt : L < d.heap.length)
    (htLt : d.tail < d.heap.length) :
    ∀ j, getNode (d.linkToEnd i) j =
      if j = i then { getNode d i with prev := some L, next := some d.tail }
      else if j = L then { getNode d L with next := some i }
      else if j = d.tail then { getNode d d.tail with prev := some i }
      else getNode d j := by
  intro j
  unfold OrderedDict.linkToEnd
  rw [hL]
  simp only [ptrSetNext, setPrev_tail, setNext_tail]
  by_cases hji : j = i
  · rw [hji, if_pos rfl, getNode_setPrev_ne _ hti, getNode_setNext_ne _ hLi,
      getNode_setNext_self _ (by simpa using hiLt),
      getNode_setPrev_self _ (by simpa using hiLt)]
  · by_cases hjL : j = L
    · rw [hjL, if_neg hLi, if_pos rfl, getNode_setPrev_ne _ (Ne.symm hLt),
        getNode_setNext_self _ (by simpa using hLLt),
        getNode_setNext_ne _ (Ne.symm hLi),
        getNode_setPrev_ne _ (Ne.symm hLi)]
    · by_cases hjt : j = d.tail
      · rw [hjt, if_neg hti, if_neg (Ne.symm hLt), if_pos rfl,
          getNode_setPrev_self _ (by simpa using htLt),
          getNode_setNext_ne _ hLt,
          getNode_setNext_ne _ (Ne.symm hti),
          getNode_setPrev_ne _ (Ne.symm hti)]
      · rw [if_neg hji, if_neg hjL, if_neg hjt,
          getNode_setPrev_ne _ (Ne.symm hjt),
          getNode_setNext_ne _ (Ne.symm hjL),
          getNode_setNext_ne _ (Ne.symm hji),
          getNode_setPrev_ne _ (Ne.symm hji)]

/-- The effect of `linkToStart`: the node is spliced in between the head
sentinel and its current first neighbour `F`. -/
theorem getNode_linkToStart (d : OrderedDict K V) {i F : Nat}
    (hF : (getNode d d.head).next = some F)
    (hFi : F ≠ i) (hhi : d.head ≠ i) (hFh : F ≠ d.head)
    (hiLt : i < d.heap.length) (hFLt : F < d.heap.length)
    (hhLt : d.head < d.heap.length) :
    ∀ j, getNode (d.linkToStart i) j =
      if j = i then { getNode d i with prev := some d.head, next := some F }
      else if j = F then { getNode d F with prev := some i }
      else if j = d.head then { getNode d d.head with next := some i }
      else getNode d j := by
  intro j
  unfold OrderedDict.linkToStart
  rw [hF]
  simp only [ptrSetPrev, setNext_head, setPrev_head]
  by_cases hji : j = i
  · rw [hji, if_pos rfl, getNode_setNext_ne _ hhi, getNode_setPrev_ne _ hFi,
      getNode_setPrev_self _ (by simpa using hiLt),
      getNode_setNext_self _ (by simpa using hiLt)]
  · by_cases hjF : j = F
    · rw [hjF, if_neg hFi, if_pos rfl, getNode_setNext_ne _ (Ne.symm hFh),
        getNode_setPrev_self _ (by simpa using hFLt),
        getNode_setPrev_ne _ (Ne.symm hFi),
        getNode_setNext_ne _ (Ne.symm hFi)]
    · by_cases hjh : j = d.head
      · rw [hjh, if_neg hhi, if_neg (Ne.symm hFh), if_pos rfl,
          getNode_setNext_self _ (by simpa using hhLt),
          getNode_setPrev_ne _ hFh,
          getNode_setPrev_ne _ (Ne.symm hhi),
          getNode_setNext_ne _ (Ne.symm hhi)]
      · rw [if_neg hji, if_neg hjF, if_neg hjh,
          getNode_setNext_ne _ (Ne.symm hjh),
          getNode_setPrev_ne _ (Ne.symm hjF),
          getNode_setPrev_ne _ (Ne.symm hji),
          getNode_setNext_ne _ (Ne.symm hji)]

/-- The effect of `linkAfter` with distinct node, target and target's
successor: the node is spliced in between `a` and `nx`. -/
theorem getNode_linkAfter (d : OrderedDict K V) {i a nx : Nat}
    (hA : (getNode d a).next = some nx)
    (hai : a ≠ i) (hnxi : nx ≠ i) (hnxa : nx ≠ a)
    (hiLt : i < d.heap.length) (haLt : a < d.heap.length)
    (hnxLt : nx < d.heap.length) :
    ∀ j, getNode (d.linkAfter i a) j =
      if j = i then { getNode d i with prev := some a, next := some nx }
      else if j = a then { getNode d a with next := some i }
      else if j = nx then { getNode d nx with prev := some i }
      else getNode d j := by
  intro j
  unfold OrderedDict.linkAfter
  rw [hA]
  simp only [ptrSetPrev]
  by_cases hji : j = i
  · rw [hji, if_pos rfl, getNode_setPrev_ne _ hnxi, getNode_setNext_ne _ hai,
      getNode_setPrev_self _ (by simpa using hiLt),
      getNode_setNext_self _ (by simpa using hiLt)]
  · by_cases hja : j = a
    · rw [hja, if_neg hai, if_pos rfl, getNode_setPrev_ne _ hnxa,
        getNode_setNext_self _ (by simpa using haLt),
        getNode_setPrev_ne _ (Ne.symm hai),
        getNode_setNext_ne _ (Ne.symm hai)]
    · by_cases hjnx : j = nx
      · rw [hjnx, if_neg hnxi, if_neg hnxa, if_pos rfl,
          getNode_setPrev_self _ (by simpa using hnxLt),
          getNode_setNext_ne _ (Ne.symm hnxa),
          getNode_setPrev_ne _ (Ne.symm hnxi),
          getNode_setNext_ne _ (Ne.symm hnxi)]
      · rw [if_neg hji, if_neg hja, if_neg hjnx,
          getNode_setPrev_ne _ (Ne.symm hjnx),
          getNode_setNext_ne _ (Ne.symm hja),
          getNode_setPrev_ne _ (Ne.symm hji),
          getNode_setNext_ne _ (Ne.symm hji)]

/-! ### Composite surgery lemmas -/

theorem linksOk_last_prev (d : OrderedDict K V) (l : List Nat) (t L : Nat)
    (hok : linksOk d (l ++ [t])) (hL : l.getLast? = some L) :
    linkRel d L t := by
  have h := (linksOk_append d l [t]).mp hok
  exact h.2.2 L hL t rfl

theorem linksOk_head_next (d : OrderedDict K V) (x F : Nat) (l : List Nat)
    (hok : linksOk d (x :: l)) (hF : l.head? = some F) : linkRel d x F := by
  cases l with
  | nil => simp at hF
  | cons y rest =>
    obtain rfl : y = F := by simpa using hF
    exact hok.1

/-- The structural part of well-formedness (no index / count conditions):
what the pure link surgeries preserve and produce. -/
def ChainOnly (d : OrderedDict K V) (ids : List Nat) : Prop :=
  linksOk d (chainList d ids) ∧ (chainList d ids).Nodup ∧
  (∀ x ∈ chainList d ids, d.head ≤ x ∧ x < d.heap.length)

theorem WF.chainOnly {d : OrderedDict K V} {ids : List Nat} (h : WF d ids) :
    ChainOnly d ids := ⟨h.links, h.nodup, h.bounds⟩

/-- Rebuild full well-formedness after a pure reordering surgery: the
chain is a permutation of the old one and index, count, keys and values
are untouched. -/
theorem WF.ofChainOnly (d f : OrderedDict K V) (ids ids' : List Nat)
    (h : WF d ids) (hc : ChainOnly f ids') (hperm : ids'.Perm ids)
    (hdata : f.data = d.data) (hlen : f.len = d.len)
    (hkey : ∀ j, (getNode f j).key = (getNode d j).key) : WF f ids' := by
  refine ⟨hc.1, hc.2.1, hc.2.2, ?_, ?_, ?_⟩
  · rw [hdata]
    refine h.dataPerm.trans ?_
    have h1 : (ids.map fun i => ((getNode d i).key, i)).Perm
        (ids'.map fun i => ((getNode d i).key, i)) := hperm.symm.map _
    refine h1.trans ?_
    have h2 : (ids'.map fun i => ((getNode d i).key, i)) =
        ids'.map fun i => ((getNode f i).key, i) :=
      List.map_congr_left fun a _ => by rw [hkey a]
    rw [h2]
  · rw [hdata]; exact h.dataNodup
  · rw [hlen, h.lenEq, hperm.length_eq]

/-- Unlinking the node `i` out of the middle of a well-formed chain
leaves the remaining chain properly linked. -/
theorem unlink_mid (d : OrderedDict K V) (p s : List Nat) (i : Nat)
    (h : WF d (p ++ i :: s)) :
    ChainOnly (d.unlinkNode i) (p ++ s) := by
  have hshape : chainList d (p ++ i :: s) =
      (d.head :: p) ++ i :: (s ++ [d.tail]) := by simp [chainList]
  have hlinks := h.links
  rw [hshape] at hlinks
  have hnodup := h.nodup
  rw [hshape] at hnodup
  have hbounds := h.bounds
  -- names for the two chain segments around i
  set A : List Nat := d.head :: p with hA
  set B : List Nat := s ++ [d.tail] with hB
  have hAne : A ≠ [] := by simp [hA]
  have hBne : B ≠ [] := by simp [hB]
  obtain ⟨pre, hpre⟩ : ∃ pre, A.getLast? = some pre :=
    ⟨A.getLast hAne, List.getLast?_eq_getLast A hAne⟩
  obtain ⟨nx, hnx⟩ : ∃ nx, B.head? = some nx := by
    cases hBcase : B with
    | nil => exact absurd hBcase hBne
    | cons b bs => exact ⟨b, by simp⟩
  have hpreMem : pre ∈ A := by
    have h1 := List.getLast?_eq_getLast A hAne
    rw [h1] at hpre
    have h2 : A.getLast hAne = pre := by simpa using hpre
    exact h2 ▸ List.getLast_mem hAne
  have hnxMem : nx ∈ B := List.mem_of_mem_head? (by simp [hnx])
  -- split linksOk
  have hsplit := (linksOk_append d A (i :: B)).mp hlinks
  obtain ⟨hOkA, hOkiB, hjoin⟩ := hsplit
  have hPreI : linkRel d pre i := hjoin pre hpre i rfl
  have hINx : linkRel d i nx := linksOk_head_next d i nx B hOkiB hnx
  have hOkB : linksOk d B := by
    cases hBcase : B with
    | nil => simp
    | cons b bs =>
      rw [hBcase] at hOkiB
      exact hOkiB.2
  -- distinctness from Nodup
  have hnd := List.nodup_append.mp hnodup
  obtain ⟨hndA, hndiB, hdisj⟩ := hnd
  have hiB : i ∉ B := (List.nodup_cons.mp hndiB).1
  have hndB : B.Nodup := (List.nodup_cons.mp hndiB).2
  have hiA : i ∉ A := fun hmem => hdisj hmem (by simp)
  have hpreI : pre ≠ i := fun he => hiA (he ▸ hpreMem)
  have hnxI : nx ≠ i := fun he => hiB (he ▸ hnxMem)
  have hpreNx : pre ≠ nx := fun he =>
    hdisj (he ▸ hpreMem) (List.mem_cons_of_mem i hnxMem)
  -- bounds
  have hmemChain : ∀ x, x ∈ A ∨ x = i ∨ x ∈ B → x ∈ chainList d (p ++ i :: s) := by
    intro x hx
    rw [hshape]
    rcases hx with hx | hx | hx
    · exact List.mem_append_left _ hx
    · exact List.mem_append_right _ (hx ▸ List.mem_cons_self i B)
    · exact List.mem_append_right _ (List.mem_cons_of_mem i hx)
  have hpreLt : pre < d.heap.length :=
    (hbounds pre (hmemChain pre (Or.inl hpreMem))).2
  have hnxLt : nx < d.heap.length :=
    (hbounds nx (hmemChain nx (Or.inr (Or.inr hnxMem)))).2
  -- the surgery table
  have htab := getNode_unlinkNode d hPreI.2 hINx.1 hpreI hnxI hpreNx hpreLt hnxLt
  -- transfer of a surviving linkRel pair
  have htrans : ∀ u v, u ≠ pre → v ≠ nx → linkRel d u v →
      linkRel (d.unlinkNode i) u v := by
    intro u v hu hv ⟨h1, h2⟩
    constructor
    · rw [htab u, if_neg hu]
      by_cases huv : u = nx
      · rw [if_pos huv]
        simpa [huv] using h1
      · rw [if_neg huv]; exact h1
    · rw [htab v]
      by_cases hvp : v = pre
      · rw [if_pos hvp]
        simpa [hvp] using h2
      · rw [if_neg hvp, if_neg hv]; exact h2
  refine ⟨?_, ?_, ?_⟩
  · -- linksOk of the shortened chain
    have hshape2 : chainList (d.unlinkNode i) (p ++ s) = A ++ B := by
      simp [chainList, hA, hB]
    rw [hshape2, linksOk_append]
    refine ⟨?_, ?_, ?_⟩
    · -- pairs inside A survive
      refine linksOk_congr d _ A ?_ hOkA
      intro u hu v hv huv
      refine htrans u v ?_ ?_ huv
      · intro he
        rw [he] at huv
        have hvi : v = i := by
          have h5 := huv.1.symm.trans hPreI.1
          simpa using h5
        exact hiA (hvi ▸ hv)
      · intro he
        rw [he] at hv
        exact hdisj hv (List.mem_cons_of_mem i hnxMem)
    · -- pairs inside B survive
      refine linksOk_congr d _ B ?_ hOkB
      intro u hu v hv huv
      refine htrans u v ?_ ?_ huv
      · intro he
        rw [he] at hu
        exact hdisj hpreMem (List.mem_cons_of_mem i hu)
      · intro he
        rw [he] at huv
        have hui : u = i := by
          have h5 := huv.2.symm.trans hINx.2
          simpa using h5
        exact hiB (hui ▸ hu)
    · -- the new bridge pre -> nx
      intro u hu v hv
      have hupre : pre = u := by rw [hpre] at hu; simpa using hu
      have hvnx : nx = v := by rw [hnx] at hv; simpa using hv
      subst hupre
      subst hvnx
      constructor
      · rw [htab pre, if_pos rfl]
      · rw [htab nx, if_neg (Ne.symm hpreNx), if_pos rfl]
  · -- Nodup
    have hshape2 : chainList (d.unlinkNode i) (p ++ s) = A ++ B := by
      simp [chainList, hA, hB]
    rw [hshape2, List.nodup_append]
    exact ⟨hndA, hndB, fun x hx1 hx2 => hdisj hx1 (List.mem_cons_of_mem i hx2)⟩
  · -- bounds
    intro x hx
    have hshape2 : chainList (d.unlinkNode i) (p ++ s) = A ++ B := by
      simp [chainList, hA, hB]
    rw [hshape2] at hx
    have : x ∈ chainList d (p ++ i :: s) := by
      rcases List.mem_append.mp hx with hx | hx
      · exact hmemChain x (Or.inl hx)
      · exact hmemChain x (Or.inr (Or.inr hx))
    have hb := hbounds x this
    simpa using hb

/-- Linking a fresh (or just unlinked) node before the tail sentinel
appends it to the chain. -/
theorem linkToEnd_chain (e : OrderedDict K V) (q : List Nat) (i : Nat)
    (hc : ChainOnly e q) (hi : i ∉ chainList e q)
    (hiLt : i < e.heap.length) (hhead : e.head ≤ i) :
    ChainOnly (e.linkToEnd i) (q ++ [i]) := by
  obtain ⟨hok, hnodup, hbounds⟩ := hc
  have hshape : chainList e q = (e.head :: q) ++ [e.tail] := by
    simp [chainList]
  set A : List Nat := e.head :: q with hA
  have hAne : A ≠ [] := by simp [hA]
  obtain ⟨L, hL'⟩ : ∃ L, A.getLast? = some L :=
    ⟨A.getLast hAne, List.getLast?_eq_getLast A hAne⟩
  have hLmem : L ∈ A := by
    have h1 := List.getLast?_eq_getLast A hAne
    rw [h1] at hL'
    have h2 : A.getLast hAne = L := by simpa using hL'
    exact h2 ▸ List.getLast_mem hAne
  rw [hshape] at hok hnodup
  have hLt : linkRel e L e.tail := linksOk_last_prev e A e.tail L hok hL'
  have hnd := List.nodup_append.mp hnodup
  obtain ⟨hndA, -, hdisj⟩ := hnd
  have htailA : e.tail ∉ A := fun hmem => hdisj hmem (by simp)
  have hLtail : L ≠ e.tail := fun he => htailA (he ▸ hLmem)
  have hiA : i ∉ A := fun hmem => hi (hshape ▸ List.mem_append_left _ hmem)
  have htailmem : e.tail ∈ chainList e q := by
    rw [hshape]; exact List.mem_append_right _ (by simp)
  have hLi : L ≠ i := fun he =>
    hi (he ▸ (hshape ▸ List.mem_append_left _ hLmem))
  have htaili : e.tail ≠ i := fun he => hi (he ▸ htailmem)
  have hLLt : L < e.heap.length :=
    (hbounds L (hshape ▸ List.mem_append_left _ hLmem)).2
  have htLt : e.tail < e.heap.length := (hbounds e.tail htailmem).2
  have htab := getNode_linkToEnd e hLt.2 hLi htaili hLtail hiLt hLLt htLt
  have hshape2 : chainList (e.linkToEnd i) (q ++ [i]) = A ++ [i, e.tail] := by
    simp [chainList, hA]
  have hperm : (A ++ [i, e.tail]).Perm (i :: (A ++ [e.tail])) := by
    have := @List.perm_middle _ i A [e.tail]
    simpa using this
  refine ⟨?_, ?_, ?_⟩
  · rw [hshape2, linksOk_append]
    refine ⟨?_, ?_, ?_⟩
    · refine linksOk_congr e _ A ?_ ?_
      · intro u hu v hv huv
        have hui : u ≠ i := fun he => hiA (he ▸ hu)
        have hvi : v ≠ i := fun he => hiA (he ▸ hv)
        have hut : u ≠ e.tail := fun he => htailA (he ▸ hu)
        have hvt : v ≠ e.tail := fun he => htailA (he ▸ hv)
        constructor
        · rw [htab u, if_neg hui]
          by_cases huL : u = L
          · exfalso
            rw [huL] at huv
            have h5 := huv.1.symm.trans hLt.1
            exact hvt (by simpa using h5)
          · rw [if_neg huL, if_neg hut]
            exact huv.1
        · rw [htab v, if_neg hvi]
          by_cases hvL : v = L
          · rw [if_pos hvL]
            simpa [hvL] using huv.2
          · rw [if_neg hvL, if_neg hvt]
            exact huv.2
      · exact ((linksOk_append e A [e.tail]).mp hok).1
    · show linkRel (e.linkToEnd i) i e.tail ∧ linksOk _ [e.tail]
      refine ⟨⟨?_, ?_⟩, trivial⟩
      · rw [htab i, if_pos rfl]
      · rw [htab e.tail, if_neg htaili, if_neg (Ne.symm hLtail), if_pos rfl]
    · intro u hu v hv
      have hupre : L = u := by rw [hL'] at hu; simpa using hu
      have hvnx : i = v := by simpa using hv
      subst hupre
      subst hvnx
      constructor
      · rw [htab L, if_neg hLi, if_pos rfl]
      · rw [htab i, if_pos rfl]
  · rw [hshape2]
    refine hperm.symm.nodup ?_
    rw [List.nodup_cons]
    exact ⟨fun hmem => hi (hshape ▸ hmem), hshape ▸ hnodup⟩
  · intro x hx
    rw [hshape2] at hx
    have hx2 := hperm.mem_iff.mp hx
    simp only [linkToEnd_head, linkToEnd_heap_length]
    rcases List.mem_cons.mp hx2 with rfl | hx3
    · exact ⟨hhead, hiLt⟩
    · exact hbounds x (hshape ▸ hx3)

/-- Linking a node right after the head sentinel puts it first in the
chain. -/
theorem linkToStart_chain (e : OrderedDict K V) (q : List Nat) (i : Nat)
    (hc : ChainOnly e q) (hi : i ∉ chainList e q)
    (hiLt : i < e.heap.length) (hhead : e.head ≤ i) :
    ChainOnly (e.linkToStart i) (i :: q) := by
  obtain ⟨hok, hnodup, hbounds⟩ := hc
  have hshape : chainList e q = e.head :: (q ++ [e.tail]) := by
    simp [chainList]
  set B : List Nat := q ++ [e.tail] with hB
  obtain ⟨F, hF'⟩ : ∃ F, B.head? = some F := by
    cases hBc : B with
    | nil => simp [hB] at hBc
    | cons b bs => exact ⟨b, by simp⟩
  have hFmem : F ∈ B := List.mem_of_mem_head? (by simp [hF'])
  rw [hshape] at hok hnodup
  have hHF : linkRel e e.head F := linksOk_head_next e e.head F B hok hF'
  have hndc := List.nodup_cons.mp hnodup
  obtain ⟨hheadB, hndB⟩ := hndc
  have hFhead : F ≠ e.head := fun he => hheadB (he ▸ hFmem)
  have hheadmem : e.head ∈ chainList e q := by rw [hshape]; simp
  have hFi : F ≠ i := fun he =>
    hi (he ▸ (hshape ▸ List.mem_cons_of_mem e.head hFmem))
  have hheadi : e.head ≠ i := fun he => hi (he ▸ hheadmem)
  have hFLt : F < e.heap.length :=
    (hbounds F (hshape ▸ List.mem_cons_of_mem e.head hFmem)).2
  have hhLt : e.head < e.heap.length := (hbounds e.head hheadmem).2
  have htab := getNode_linkToStart e hHF.1 hFi hheadi hFhead hiLt hFLt hhLt
  have hshape2 : chainList (e.linkToStart i) (i :: q) = [e.head, i] ++ B := by
    simp [chainList, hB]
  have hperm : ([e.head, i] ++ B).Perm (i :: (e.head :: B)) := by
    have := @List.perm_middle _ i [e.head] B
    simpa using this
  refine ⟨?_, ?_, ?_⟩
  · rw [hshape2, linksOk_append]
    refine ⟨?_, ?_, ?_⟩
    · show linkRel (e.linkToStart i) e.head i ∧ linksOk _ [i]
      refine ⟨⟨?_, ?_⟩, trivial⟩
      · rw [htab e.head, if_neg hheadi, if_neg (Ne.symm hFhead), if_pos rfl]
      · rw [htab i, if_pos rfl]
    · refine linksOk_congr e _ B ?_ ?_
      · intro u hu v hv huv
        have hui : u ≠ i := fun he => hi (he ▸ (hshape ▸ List.mem_cons_of_mem e.head hu))
        have hvi : v ≠ i := fun he => hi (he ▸ (hshape ▸ List.mem_cons_of_mem e.head hv))
        have huh : u ≠ e.head := fun he => hheadB (he ▸ hu)
        have hvh : v ≠ e.head := fun he => hheadB (he ▸ hv)
        constructor
        · rw [htab u, if_neg hui]
          by_cases huF : u = F
          · rw [if_pos huF]
            simpa [huF] using huv.1
          · rw [if_neg huF, if_neg huh]
            exact huv.1
        · rw [htab v, if_neg hvi]
          by_cases hvF : v = F
          · exfalso
            rw [hvF] at huv
            have h5 := huv.2.symm.trans hHF.2
            exact huh (by simpa using h5)
          · rw [if_neg hvF, if_neg hvh]
            exact huv.2
      · cases hBc : B with
        | nil => simp
        | cons b bs =>
          rw [hBc] at hok
          exact hok.2
    · intro u hu v hv
      have hui : i = u := by simpa using hu
      have hvF : F = v := by rw [hF'] at hv; simpa using hv
      subst hui
      subst hvF
      constructor
      · rw [htab i, if_pos rfl]
      · rw [htab F, if_neg hFi, if_pos rfl]
  · rw [hshape2]
    refine hperm.symm.nodup ?_
    rw [List.nodup_cons]
    exact ⟨fun hmem => hi (hshape ▸ hmem), hshape ▸ hnodup⟩
  · intro x hx
    rw [hshape2] at hx
    have hx2 := hperm.mem_iff.mp hx
    simp only [linkToStart_head, linkToStart_heap_length]
    rcases List.mem_cons.mp hx2 with rfl | hx3
    · exact ⟨hhead, hiLt⟩
    · exact hbounds x (hshape ▸ hx3)

/-- Linking a node right after node `a` splices it in between `a` and
`a`'s current successor. -/
theorem linkAfter_chain (e : OrderedDict K V) (q1 q2 : List Nat) (a i : Nat)
    (hc : ChainOnly e (q1 ++ a :: q2)) (hi : i ∉ chainList e (q1 ++ a :: q2))
    (hiLt : i < e.heap.length) (hhead : e.head ≤ i) :
    ChainOnly (e.linkAfter i a) (q1 ++ a :: i :: q2) := by
  obtain ⟨hok, hnodup, hbounds⟩ := hc
  have hshape : chainList e (q1 ++ a :: q2) =
      (e.head :: q1) ++ a :: (q2 ++ [e.tail]) := by simp [chainList]
  set A : List Nat := e.head :: q1 with hA
  set B : List Nat := q2 ++ [e.tail] with hB
  have hAne : A ≠ [] := by simp [hA]
  obtain ⟨pre, hpre⟩ : ∃ pre, A.getLast? = some pre :=
    ⟨A.getLast hAne, List.getLast?_eq_getLast A hAne⟩
  have hpreMem : pre ∈ A := by
    have h1 := List.getLast?_eq_getLast A hAne
    rw [h1] at hpre
    have h2 : A.getLast hAne = pre := by simpa using hpre
    exact h2 ▸ List.getLast_mem hAne
  obtain ⟨nx, hnx⟩ : ∃ nx, B.head? = some nx := by
    cases hBc : B with
    | nil => simp [hB] at hBc
    | cons b bs => exact ⟨b, by simp⟩
  have hnxMem : nx ∈ B := List.mem_of_mem_head? (by simp [hnx])
  rw [hshape] at hok hnodup
  have hsplit := (linksOk_append e A (a :: B)).mp hok
  obtain ⟨hOkA, hOkaB, hjoin⟩ := hsplit
  have hPreA : linkRel e pre a := hjoin pre hpre a rfl
  have hANx : linkRel e a nx := linksOk_head_next e a nx B hOkaB hnx
  have hOkB : linksOk e B := by
    cases hBc : B with
    | nil => simp
    | cons b bs =>
      rw [hBc] at hOkaB
      exact hOkaB.2
  have hnd := List.nodup_append.mp hnodup
  obtain ⟨hndA, hndaB, hdisj⟩ := hnd
  have haB : a ∉ B := (List.nodup_cons.mp hndaB).1
  have hndB : B.Nodup := (List.nodup_cons.mp hndaB).2
  have haA : a ∉ A := fun hmem => hdisj hmem (by simp)
  have hmemChain : ∀ x, x ∈ A ∨ x = a ∨ x ∈ B →
      x ∈ chainList e (q1 ++ a :: q2) := by
    intro x hx
    rw [hshape]
    rcases hx with hx | hx | hx
    · exact List.mem_append_left _ hx
    · exact List.mem_append_right _ (hx ▸ List.mem_cons_self a B)
    · exact List.mem_append_right _ (List.mem_cons_of_mem a hx)
  have hai : a ≠ i := fun he => hi (he ▸ hmemChain a (Or.inr (Or.inl rfl)))
  have hnxi : nx ≠ i := fun he =>
    hi (he ▸ hmemChain nx (Or.inr (Or.inr hnxMem)))
  have hnxa : nx ≠ a := fun he => haB (he ▸ hnxMem)
  have hpreI : pre ≠ i := fun he => hi (he ▸ hmemChain pre (Or.inl hpreMem))
  have haLt : a < e.heap.length :=
    (hbounds a (hmemChain a (Or.inr (Or.inl rfl)))).2
  have hnxLt : nx < e.heap.length :=
    (hbounds nx (hmemChain nx (Or.inr (Or.inr hnxMem)))).2
  have htab := getNode_linkAfter e hANx.1 hai hnxi hnxa hiLt haLt hnxLt
  have hshape2 : chainList (e.linkAfter i a) (q1 ++ a :: i :: q2) =
      A ++ a :: i :: B := by simp [chainList, hA, hB]
  have hperm : (A ++ a :: i :: B).Perm (i :: (A ++ a :: B)) := by
    have h1 := @List.perm_middle _ i (A ++ [a]) B
    simpa using h1
  have holdshape : A ++ a :: B = chainList e (q1 ++ a :: q2) := by
    rw [hshape]
  refine ⟨?_, ?_, ?_⟩
  · rw [hshape2, linksOk_append]
    refine ⟨?_, ?_, ?_⟩
    · -- pairs inside A survive
      refine linksOk_congr e _ A ?_ hOkA
      intro u hu v hv huv
      have hui : u ≠ i := fun he => hi (he ▸ hmemChain u (Or.inl hu))
      have hvi : v ≠ i := fun he => hi (he ▸ hmemChain v (Or.inl hv))
      have hua : u ≠ a := fun he => haA (he ▸ hu)
      have hva : v ≠ a := fun he => haA (he ▸ hv)
      have hvnx : v ≠ nx := fun he => hdisj (he ▸ hv) (List.mem_cons_of_mem a hnxMem)
      constructor
      · rw [htab u, if_neg hui, if_neg hua]
        by_cases hunx : u = nx
        · exfalso
          exact hdisj (hunx ▸ hu) (List.mem_cons_of_mem a hnxMem)
        · rw [if_neg hunx]
          exact huv.1
      · rw [htab v, if_neg hvi, if_neg hva, if_neg hvnx]
        exact huv.2
    · -- the middle block a :: i :: B
      have hmid : (a :: i :: B) = [a, i] ++ B := by simp
      rw [hmid, linksOk_append]
      refine ⟨?_, ?_, ?_⟩
      · show linkRel (e.linkAfter i a) a i ∧ linksOk _ [i]
        refine ⟨⟨?_, ?_⟩, trivial⟩
        · rw [htab a, if_neg hai, if_pos rfl]
        · rw [htab i, if_pos rfl]
      · refine linksOk_congr e _ B ?_ hOkB
        intro u hu v hv huv
        have hui : u ≠ i := fun he =>
          hi (he ▸ hmemChain u (Or.inr (Or.inr hu)))
        have hvi : v ≠ i := fun he =>
          hi (he ▸ hmemChain v (Or.inr (Or.inr hv)))
        have hua : u ≠ a := fun he => haB (he ▸ hu)
        have hva : v ≠ a := fun he => haB (he ▸ hv)
        constructor
        · rw [htab u, if_neg hui, if_neg hua]
          by_cases hunx : u = nx
          · rw [if_pos hunx]
            simpa [hunx] using huv.1
          · rw [if_neg hunx]
            exact huv.1
        · rw [htab v, if_neg hvi, if_neg hva]
          by_cases hvnx : v = nx
          · exfalso
            rw [hvnx] at huv
            have h5 := huv.2.symm.trans hANx.2
            exact hua (by simpa using h5)
          · rw [if_neg hvnx]
            exact huv.2
      · intro u hu v hv
        have hui : i = u := by simpa using hu
        have hvnx2 : nx = v := by rw [hnx] at hv; simpa using hv
        subst hui
        subst hvnx2
        constructor
        · rw [htab i, if_pos rfl]
        · rw [htab nx, if_neg hnxi, if_neg hnxa, if_pos rfl]
    · -- the bridge from the last node of A to a is untouched
      intro u hu v hv
      have hupre : pre = u := by rw [hpre] at hu; simpa using hu
      have hva2 : a = v := by simpa using hv
      subst hupre
      subst hva2
      constructor
      · rw [htab pre, if_neg hpreI]
        by_cases hprea : pre = a
        · exact absurd (hprea ▸ hpreMem) haA
        · rw [if_neg hprea]
          by_cases hprenx : pre = nx
          · exact absurd hpreMem (fun hm =>
              hdisj hm (List.mem_cons_of_mem a (by rw [hprenx]; exact hnxMem)))
          · rw [if_neg hprenx]
            exact hPreA.1
      · rw [htab a, if_neg hai, if_pos rfl]
        exact hPreA.2
  · rw [hshape2]
    refine hperm.symm.nodup ?_
    rw [List.nodup_cons]
    refine ⟨fun hmem => hi ?_, hnodup⟩
    rw [holdshape] at hmem
    exact hmem
  · intro x hx
    rw [hshape2] at hx
    have hx2 := hperm.mem_iff.mp hx
    simp only [linkAfter_head, linkAfter_heap_length]
    rcases List.mem_cons.mp hx2 with rfl | hx3
    · exact ⟨hhead, hiLt⟩
    · refine hbounds x ?_
      rw [holdshape] at hx3
      exact hx3

/-! ### Operation-level lemmas -/

@[simp] theorem setVal_data (d : OrderedDict K V) (i : Nat) (v : V) :
    (setVal d i v).data = d.data := rfl

@[simp] theorem setVal_head (d : OrderedDict K V) (i : Nat) (v : V) :
    (setVal d i v).head = d.head := rfl

@[simp] theorem setVal_tail (d : OrderedDict K V) (i : Nat) (v : V) :
    (setVal d i v).tail = d.tail := rfl

@[simp] theorem setVal_len (d : OrderedDict K V) (i : Nat) (v : V) :
    (setVal d i v).len = d.len := rfl

@[simp] theorem setVal_heap_length (d : OrderedDict K V) (i : Nat) (v : V) :
    (setVal d i v).heap.length = d.heap.length := by
  simp [setVal]

theorem prev_setVal (d : OrderedDict K V) (i j : Nat) (v : V) :
    (getNode (setVal d i v) j).prev = (getNode d j).prev := by
  rw [getNode_setVal]; split
  · next h => rw [h.1]
  · rfl

theorem next_setVal (d : OrderedDict K V) (i j : Nat) (v : V) :
    (getNode (setVal d i v) j).next = (getNode d j).next := by
  rw [getNode_setVal]; split
  · next h => rw [h.1]
  · rfl

@[simp] theorem alloc_data (d : OrderedDict K V) (n : Node K V) :
    (alloc d n).1.data = d.data := rfl

@[simp] theorem alloc_head (d : OrderedDict K V) (n : Node K V) :
    (alloc d n).1.head = d.head := rfl

@[simp] theorem alloc_tail (d : OrderedDict K V) (n : Node K V) :
    (alloc d n).1.tail = d.tail := rfl

@[simp] theorem alloc_len (d : OrderedDict K V) (n : Node K V) :
    (alloc d n).1.len = d.len := rfl

@[simp] theorem alloc_heap_length (d : OrderedDict K V) (n : Node K V) :
    (alloc d n).1.heap.length = d.heap.length + 1 := by
  simp [alloc]

/-- `ChainOnly` only depends on the arena and the two sentinel fields. -/
theorem ChainOnly_congr_state (d f : OrderedDict K V) (ids : List Nat)
    (hheap : f.heap = d.heap) (hhead : f.head = d.head)
    (htail : f.tail = d.tail) :
    ChainOnly f ids ↔ ChainOnly d ids := by
  have hget : ∀ j, getNode f j = getNode d j := fun j => by
    rw [getNode, getNode, hheap]
  have hchain : chainList f ids = chainList d ids := by
    rw [chainList, chainList, hhead, htail]
  have hrel : ∀ u v, linkRel f u v ↔ linkRel d u v := fun u v => by
    rw [linkRel, linkRel, hget u, hget v]
  constructor
  · rintro ⟨hok, hnd, hb⟩
    rw [hchain] at hok hnd hb
    refine ⟨linksOk_congr f d _ (fun u _ v _ huv => (hrel u v).mp huv) hok,
      hnd, ?_⟩
    intro x hx
    have hb2 := hb x hx
    rwa [hhead, hheap] at hb2
  · rintro ⟨hok, hnd, hb⟩
    refine ⟨?_, ?_, ?_⟩
    · rw [hchain]
      exact linksOk_congr d f _ (fun u _ v _ huv => (hrel u v).mpr huv) hok
    · rw [hchain]; exact hnd
    · intro x hx
      rw [hchain] at hx
      rw [hhead, hheap]
      exact hb x hx

/-- Updating the index and count fields does not touch the chain shape. -/
theorem ChainOnly_update (d : OrderedDict K V) (m : List (K × Nat)) (n : Int)
    (ids : List Nat) :
    ChainOnly { d with data := m, len := n } ids ↔ ChainOnly d ids :=
  ChainOnly_congr_state d _ ids rfl rfl rfl

/-- `linkRel` only looks at prev/next fields, so `setVal` preserves it,
and hence the whole chain shape. -/
theorem ChainOnly_setVal (d : OrderedDict K V) (i : Nat) (v : V)
    (ids : List Nat) (hc : ChainOnly d ids) : ChainOnly (setVal d i v) ids := by
  obtain ⟨hok, hnodup, hbounds⟩ := hc
  have hshape : chainList (setVal d i v) ids = chainList d ids := by
    simp [chainList]
  refine ⟨?_, ?_, ?_⟩
  · rw [hshape]
    refine linksOk_congr d _ _ ?_ hok
    intro u _ v' _ huv
    exact ⟨(next_setVal d i u v) ▸ huv.1, (prev_setVal d i v' v) ▸ huv.2⟩
  · rw [hshape]; exact hnodup
  · intro x hx
    rw [hshape] at hx
    simpa using hbounds x hx

theorem mem_chainList_of_mem (d : OrderedDict K V) (ids : List Nat) (i : Nat)
    (h : i ∈ ids) : i ∈ chainList d ids :=
  List.mem_cons_of_mem _ (List.mem_append_left _ h)

theorem node_lt_of_mem (d : OrderedDict K V) (ids : List Nat)
    (hwf : WF d ids) {i : Nat} (h : i ∈ ids) : i < d.heap.length :=
  (hwf.bounds i (mem_chainList_of_mem d ids i h)).2

theorem Has_some (d : OrderedDict K V) (k : K) (hk : d.Has k = true) :
    ∃ i, mapGet d.data k = some i := by
  unfold OrderedDict.Has at hk
  exact Option.isSome_iff_exists.mp hk

theorem Set_present_state (d : OrderedDict K V) (k : K) (v : V) (i : Nat)
    (hget : mapGet d.data k = some i) : d.Set k v = setVal d i v := by
  unfold OrderedDict.Set
  rw [hget]

theorem Set_present_wf (d : OrderedDict K V) (ids : List Nat) (k : K) (v : V)
    (i : Nat) (hwf : WF d ids) (hget : mapGet d.data k = some i) :
    WF (d.Set k v) ids := by
  rw [Set_present_state d k v i hget]
  exact WF.ofChainOnly d _ ids ids hwf
    (ChainOnly_setVal d i v ids hwf.chainOnly) (List.Perm.refl ids) rfl rfl
    (fun j => key_setVal d i j v)

/-- Claim C4: Set on a key that is already present replaces only that
node's value in place: Keys (hence the key's position), Len, Has of every
key and Get of every other key are unchanged, while Get of the key now
returns the new value. -/
theorem C4_Set_existing (d : OrderedDict K V) (ids : List Nat) (k : K)
    (v : V) (hwf : WF d ids) (hk : d.Has k = true) :
    (d.Set k v).Keys = d.Keys ∧
    (d.Set k v).Len = d.Len ∧
    (d.Set k v).Get k = (v, true) ∧
    (∀ k', k' ≠ k → (d.Set k v).Get k' = d.Get k') ∧
    (∀ k', (d.Set k v).Has k' = d.Has k') := by
  obtain ⟨i, hget⟩ := Has_some d k hk
  obtain ⟨hiMem, hiKey⟩ := (mapGet_some_iff d ids hwf k i).mp hget
  have hiLt : i < d.heap.length := node_lt_of_mem d ids hwf hiMem
  have hwf2 : WF (d.Set k v) ids := Set_present_wf d ids k v i hwf hget
  have hstate : d.Set k v = setVal d i v := Set_present_state d k v i hget
  refine ⟨?_, ?_, ?_, ?_, ?_⟩
  · rw [Keys_eq _ ids hwf2, Keys_eq d ids hwf, hstate]
    exact List.map_congr_left fun j _ => key_setVal d i j v
  · rw [hstate]
    simp [OrderedDict.Len]
  · rw [hstate]
    unfold OrderedDict.Get
    rw [setVal_data, hget]
    show ((getNode (setVal d i v) i).val, true) = (v, true)
    rw [getNode_setVal_self _ hiLt]
  · intro k' hk'
    rw [hstate]
    unfold OrderedDict.Get
    rw [setVal_data]
    cases hg' : mapGet d.data k' with
    | none => rfl
    | some j =>
      obtain ⟨hjMem, hjKey⟩ := (mapGet_some_iff d ids hwf k' j).mp hg'
      have hij : i ≠ j := by
        rintro rfl
        exact hk' (hjKey ▸ hiKey ▸ rfl)
      show ((getNode (setVal d i v) j).val, true) = ((getNode d j).val, true)
      rw [getNode_setVal_ne _ hij]
  · intro k'
    rw [hstate]
    unfold OrderedDict.Has
    rw [setVal_data]

theorem C4_Set_existing_witness :
    WF dEx [2, 3, 4] ∧ dEx.Has 2 = true ∧
    ((dEx.Set 2 99).Keys = dEx.Keys ∧
     (dEx.Set 2 99).Len = dEx.Len ∧
     (dEx.Set 2 99).Get 2 = (99, true) ∧
     (∀ k', k' ≠ 2 → (dEx.Set 2 99).Get k' = dEx.Get k') ∧
     (∀ k', (dEx.Set 2 99).Has k' = dEx.Has k')) :=
  ⟨by decide, by decide, C4_Set_existing dEx [2, 3, 4] 2 99 (by decide) (by decide)⟩

theorem Has_none (d : OrderedDict K V) (k : K) (hk : d.Has k = false) :
    mapGet d.data k = none := by
  unfold OrderedDict.Has at hk
  cases hg : mapGet d.data k with
  | none => rfl
  | some i => rw [hg] at hk; simp at hk

theorem mapGet_append_right {m : List (K × Nat)} {k : K}
    (h : mapGet m k = none) (l : List (K × Nat)) :
    mapGet (m ++ l) k = mapGet l k := by
  induction m with
  | nil => simp
  | cons p rest ih =>
    obtain ⟨k', j⟩ := p
    rw [mapGet] at h
    by_cases hk : k = k'
    · rw [if_pos hk] at h; exact absurd h (by simp)
    · rw [if_neg hk] at h
      rw [List.cons_append, mapGet, if_neg hk]
      exact ih h

theorem mapGet_append_single_ne {m : List (K × Nat)} {k k' : K} (i : Nat)
    (h : k' ≠ k) : mapGet (m ++ [(k, i)]) k' = mapGet m k' := by
  induction m with
  | nil => simp [mapGet, h]
  | cons p rest ih =>
    obtain ⟨k'', j⟩ := p
    rw [List.cons_append, mapGet, mapGet]
    by_cases hk : k' = k''
    · rw [if_pos hk, if_pos hk]
    · rw [if_neg hk, if_neg hk, ih]

/-- What `Set` does on an absent key, at the level of chains and fields. -/
theorem Set_absent_spec (d : OrderedDict K V) (ids : List Nat) (k : K)
    (v : V) (hwf : WF d ids) (hget : mapGet d.data k = none) :
    WF (d.Set k v) (ids ++ [d.heap.length]) ∧
    (∀ j, j < d.heap.length →
      (getNode (d.Set k v) j).key = (getNode d j).key ∧
      (getNode (d.Set k v) j).val = (getNode d j).val) ∧
    (getNode (d.Set k v) d.heap.length).key = k ∧
    (getNode (d.Set k v) d.heap.length).val = v ∧
    (d.Set k v).len = d.len + 1 ∧
    (d.Set k v).data = d.data ++ [(k, d.heap.length)] ∧
    (d.Set k v).head = d.head ∧ (d.Set k v).tail = d.tail ∧
    (d.Set k v).heap.length = d.heap.length + 1 := by
  have hbounds := hwf.bounds
  have hhmem : d.head ∈ chainList d ids := by simp [chainList]
  have hhLt : d.head < d.heap.length := (hbounds d.head hhmem).2
  set nd : Node K V := { prev := none, next := none, key := k, val := v }
    with hnd
  set a1 := alloc d nd with ha1
  set o1 := a1.1.linkToEnd a1.2 with ho1
  have hstate : d.Set k v =
      { o1 with data := mapPut o1.data k a1.2, len := o1.len + 1 } := by
    unfold OrderedDict.Set
    rw [hget]
  have ha2 : a1.2 = d.heap.length := rfl
  have hgetA : ∀ j, getNode a1.1 j =
      if j = d.heap.length then nd else getNode d j := getNode_alloc d nd
  have hco0 : ChainOnly a1.1 ids := by
    obtain ⟨hok, hnd', hb⟩ := hwf.chainOnly
    have hchain : chainList a1.1 ids = chainList d ids := rfl
    refine ⟨?_, ?_, ?_⟩
    · rw [hchain]
      refine linksOk_congr d _ _ ?_ hok
      intro u hu v hv huv
      have hu' : u ≠ d.heap.length := Nat.ne_of_lt (hb u hu).2
      have hv' : v ≠ d.heap.length := Nat.ne_of_lt (hb v hv).2
      constructor
      · rw [hgetA u, if_neg hu']; exact huv.1
      · rw [hgetA v, if_neg hv']; exact huv.2
    · rw [hchain]; exact hnd'
    · intro x hx
      rw [hchain] at hx
      have hb2 := hb x hx
      simp only [ha1, alloc_head, alloc_heap_length]
      omega
  have hnotin : a1.2 ∉ chainList a1.1 ids := by
    rw [ha2]
    intro hmem
    have hchain : chainList a1.1 ids = chainList d ids := rfl
    rw [hchain] at hmem
    exact absurd (hbounds _ hmem).2 (by omega)
  have hco1 : ChainOnly o1 (ids ++ [a1.2]) := by
    refine linkToEnd_chain a1.1 ids a1.2 hco0 hnotin ?_ ?_
    · rw [ha2]; simp [ha1]
    · rw [ha2]; simp only [ha1, alloc_head]; omega
  have hkeyO1 : ∀ j, (getNode o1 j).key = (getNode a1.1 j).key :=
    fun j => key_linkToEnd a1.1 a1.2 j
  have hvalO1 : ∀ j, (getNode o1 j).val = (getNode a1.1 j).val :=
    fun j => val_linkToEnd a1.1 a1.2 j
  have hgetF : ∀ j, getNode (d.Set k v) j = getNode o1 j := by
    intro j
    rw [hstate]
    rfl
  have hdataF : (d.Set k v).data = d.data ++ [(k, d.heap.length)] := by
    rw [hstate]
    show mapPut o1.data k a1.2 = d.data ++ [(k, d.heap.length)]
    have : o1.data = d.data := by simp [ho1, ha1]
    rw [this, ha2, mapPut_absent _ hget]
  have hkeyF : ∀ j, j < d.heap.length →
      (getNode (d.Set k v) j).key = (getNode d j).key ∧
      (getNode (d.Set k v) j).val = (getNode d j).val := by
    intro j hj
    rw [hgetF j]
    rw [hkeyO1 j, hvalO1 j, hgetA j, if_neg (Nat.ne_of_lt hj)]
    exact ⟨rfl, rfl⟩
  have hkeyNew : (getNode (d.Set k v) d.heap.length).key = k ∧
      (getNode (d.Set k v) d.heap.length).val = v := by
    rw [hgetF, hkeyO1, hvalO1, hgetA, if_pos rfl]
    exact ⟨rfl, rfl⟩
  have hlenF : (d.Set k v).len = d.len + 1 := by
    rw [hstate]
    show o1.len + 1 = d.len + 1
    simp [ho1, ha1]
  refine ⟨?_, hkeyF, hkeyNew.1, hkeyNew.2, hlenF, hdataF, ?_, ?_, ?_⟩
  · -- well-formedness of the result
    refine ⟨?_, ?_, ?_, ?_, ?_, ?_⟩
    · have hc := hco1.1
      have : chainList (d.Set k v) (ids ++ [d.heap.length]) =
          chainList o1 (ids ++ [a1.2]) := by rw [hstate, ha2]; rfl
      rw [this]
      refine linksOk_congr o1 _ _ ?_ hc
      intro u _ v' _ huv
      have hg : ∀ j, getNode (d.Set k v) j = getNode o1 j := hgetF
      exact ⟨(hg u) ▸ huv.1, (hg v') ▸ huv.2⟩
    · have hc := hco1.2.1
      have : chainList (d.Set k v) (ids ++ [d.heap.length]) =
          chainList o1 (ids ++ [a1.2]) := by rw [hstate, ha2]; rfl
      rw [this]
      exact hc
    · intro x hx
      have : chainList (d.Set k v) (ids ++ [d.heap.length]) =
          chainList o1 (ids ++ [a1.2]) := by rw [hstate, ha2]; rfl
      rw [this] at hx
      have hb2 := hco1.2.2 x hx
      rw [hstate]
      exact hb2
    · -- index permutation
      rw [hdataF]
      have hmap : (ids ++ [d.heap.length]).map
          (fun i => ((getNode (d.Set k v) i).key, i)) =
          ids.map (fun i => ((getNode d i).key, i)) ++ [(k, d.heap.length)] := by
        rw [List.map_append]
        congr 1
        · refine List.map_congr_left fun j hj => ?_
          have hjLt : j < d.heap.length := node_lt_of_mem d ids hwf hj
          rw [(hkeyF j hjLt).1]
        · simp [hkeyNew.1]
      rw [hmap]
      exact hwf.dataPerm.append (List.Perm.refl _)
    · rw [hdataF, List.map_append, List.nodup_append]
      refine ⟨hwf.dataNodup, by simp, ?_⟩
      intro x hx1 hx2
      simp only [List.map_cons, List.map_nil, List.mem_singleton] at hx2
      subst hx2
      exact absurd hx1 ((mapGet_eq_none_iff).mp hget)
    · rw [hlenF, hwf.lenEq]
      simp
  · rw [hstate]; show o1.head = d.head; simp [ho1, ha1]
  · rw [hstate]; show o1.tail = d.tail; simp [ho1, ha1]
  · rw [hstate]; show o1.heap.length = d.heap.length + 1; simp [ho1, ha1]

/-- Claim C3: Set on an absent key creates one new node holding the pair,
appends it at the logical end (the new key is last in Keys and Values,
previously present keys keep their order and values), adds it to the
index and increments the count by one. -/
theorem C3_Set_new_key (d : OrderedDict K V) (ids : List Nat) (k : K)
    (v : V) (hwf : WF d ids) (hk : d.Has k = false) :
    (d.Set k v).Keys = d.Keys ++ [k] ∧
    (d.Set k v).Values = d.Values ++ [v] ∧
    (d.Set k v).Len = d.Len + 1 ∧
    (d.Set k v).Has k = true ∧
    (d.Set k v).Get k = (v, true) ∧
    (∀ k', k' ≠ k → (d.Set k v).Get k' = d.Get k') := by
  have hget := Has_none d k hk
  obtain ⟨hwf2, hpres, hkeyN, hvalN, hlen, hdata, -, -, -⟩ :=
    Set_absent_spec d ids k v hwf hget
  refine ⟨?_, ?_, ?_, ?_, ?_, ?_⟩
  · rw [Keys_eq _ _ hwf2, Keys_eq d ids hwf]
    unfold chainKeys
    rw [List.map_append]
    congr 1
    · exact List.map_congr_left fun j hj =>
        (hpres j (node_lt_of_mem d ids hwf hj)).1
    · simp [hkeyN]
  · rw [Values_eq _ _ hwf2, Values_eq d ids hwf]
    unfold chainVals
    rw [List.map_append]
    congr 1
    · exact List.map_congr_left fun j hj =>
        (hpres j (node_lt_of_mem d ids hwf hj)).2
    · simp [hvalN]
  · show (d.Set k v).len = d.len + 1
    exact hlen
  · unfold OrderedDict.Has
    rw [hdata, mapGet_append_right hget]
    simp [mapGet]
  · unfold OrderedDict.Get
    rw [hdata, mapGet_append_right hget]
    have hone : mapGet [(k, d.heap.length)] k = some d.heap.length := by
      simp [mapGet]
    rw [hone]
    show ((getNode (d.Set k v) d.heap.length).val, true) = (v, true)
    rw [hvalN]
  · intro k' hk'
    unfold OrderedDict.Get
    rw [hdata, mapGet_append_single_ne _ hk']
    cases hg' : mapGet d.data k' with
    | none => rfl
    | some j =>
      obtain ⟨hjMem, -⟩ := (mapGet_some_iff d ids hwf k' j).mp hg'
      show ((getNode (d.Set k v) j).val, true) = ((getNode d j).val, true)
      rw [(hpres j (node_lt_of_mem d ids hwf hjMem)).2]

theorem C3_Set_new_key_witness :
    WF dEx [2, 3, 4] ∧ dEx.Has 5 = false ∧
    ((dEx.Set 5 50).Keys = dEx.Keys ++ [5] ∧
     (dEx.Set 5 50).Values = dEx.Values ++ [50] ∧
     (dEx.Set 5 50).Len = dEx.Len + 1 ∧
     (dEx.Set 5 50).Has 5 = true ∧
     (dEx.Set 5 50).Get 5 = (50, true) ∧
     (∀ k', k' ≠ 5 → (dEx.Set 5 50).Get k' = dEx.Get k')) :=
  ⟨by decide, by decide, C3_Set_new_key dEx [2, 3, 4] 5 50 (by decide) (by decide)⟩

theorem mapGet_mapDel_self {m : List (K × Nat)} {k : K}
    (hn : (m.map Prod.fst).Nodup) : mapGet (mapDel m k) k = none := by
  induction m with
  | nil => simp [mapDel, mapGet]
  | cons q rest ih =>
    obtain ⟨k'', j⟩ := q
    simp only [List.map_cons, List.nodup_cons] at hn
    rw [mapDel]
    by_cases hk : k = k''
    · rw [if_pos hk]
      rw [mapGet_eq_none_iff]
      exact fun hmem => hn.1 (hk ▸ hmem)
    · rw [if_neg hk, mapGet, if_neg hk]
      exact ih hn.2

theorem mapGet_mapDel_ne {m : List (K × Nat)} {k k' : K} (h : k' ≠ k) :
    mapGet (mapDel m k) k' = mapGet m k' := by
  induction m with
  | nil => simp [mapDel]
  | cons q rest ih =>
    obtain ⟨k'', j⟩ := q
    rw [mapDel]
    by_cases hk : k = k''
    · rw [if_pos hk, mapGet, if_neg (hk ▸ h)]
    · rw [if_neg hk, mapGet, mapGet]
      by_cases hk2 : k' = k''
      · rw [if_pos hk2, if_pos hk2]
      · rw [if_neg hk2, if_neg hk2, ih]

theorem Delete_absent (d : OrderedDict K V) (k : K)
    (hget : mapGet d.data k = none) : d.Delete k = (d, default, false) := by
  unfold OrderedDict.Delete
  rw [hget]

/-- What `Delete` does on a present key, at the level of chains and
fields. -/
theorem Delete_present_spec (d : OrderedDict K V) (p s : List Nat) (i : Nat)
    (k : K) (hwf : WF d (p ++ i :: s)) (hget : mapGet d.data k = some i) :
    WF (d.Delete k).1 (p ++ s) ∧
    (d.Delete k).2 = ((getNode d i).val, true) ∧
    (∀ j, (getNode (d.Delete k).1 j).key = (getNode d j).key) ∧
    (∀ j, (getNode (d.Delete k).1 j).val = (getNode d j).val) ∧
    (d.Delete k).1.len = d.len - 1 ∧
    (d.Delete k).1.data = mapDel d.data k ∧
    (d.Delete k).1.head = d.head ∧ (d.Delete k).1.tail = d.tail ∧
    (d.Delete k).1.heap.length = d.heap.length := by
  obtain ⟨hiMem, hiKey⟩ := (mapGet_some_iff d _ hwf k i).mp hget
  set u := d.unlinkNode i with hu
  have hstate : d.Delete k =
      ({ u with data := mapDel u.data k, len := u.len - 1 },
       (getNode { u with data := mapDel u.data k, len := u.len - 1 } i).val,
       true) := by
    unfold OrderedDict.Delete
    rw [hget]
  have hgetF : ∀ j, getNode (d.Delete k).1 j = getNode u j := by
    intro j
    rw [hstate]
    rfl
  have hkeyF : ∀ j, (getNode (d.Delete k).1 j).key = (getNode d j).key := by
    intro j
    rw [hgetF j, hu, key_unlinkNode]
  have hvalF : ∀ j, (getNode (d.Delete k).1 j).val = (getNode d j).val := by
    intro j
    rw [hgetF j, hu, val_unlinkNode]
  have hdataF : (d.Delete k).1.data = mapDel d.data k := by
    rw [hstate]
    show mapDel u.data k = mapDel d.data k
    rw [hu, unlinkNode_data]
  have hco : ChainOnly u (p ++ s) := unlink_mid d p s i hwf
  have hknodup := chainKeys_nodup d _ hwf
  have hsplitkeys : chainKeys d (p ++ i :: s) =
      chainKeys d p ++ (getNode d i).key :: chainKeys d s := by
    simp [chainKeys]
  rw [hsplitkeys] at hknodup
  have hkp : ∀ j ∈ p, (getNode d j).key ≠ k := by
    intro j hj he
    have h1 := List.nodup_append.mp hknodup
    have hmem1 : (getNode d j).key ∈ chainKeys d p :=
      List.mem_map_of_mem _ hj
    have hmem2 : (getNode d j).key ∈ (getNode d i).key :: chainKeys d s := by
      rw [he, ← hiKey]
      exact List.mem_cons_self _ _
    exact h1.2.2 hmem1 hmem2
  have hks : ∀ j ∈ s, (getNode d j).key ≠ k := by
    intro j hj he
    have h1 := List.nodup_append.mp hknodup
    have h2 := (List.nodup_cons.mp h1.2.1).1
    apply h2
    rw [← hiKey] at he
    exact he ▸ List.mem_map_of_mem _ hj
  refine ⟨?_, ?_, hkeyF, hvalF, ?_, hdataF, ?_, ?_, ?_⟩
  · -- well-formedness
    refine ⟨?_, ?_, ?_, ?_, ?_, ?_⟩
    · have hc := hco.1
      have hsh : chainList (d.Delete k).1 (p ++ s) = chainList u (p ++ s) := by
        rw [hstate]
        rfl
      rw [hsh]
      refine linksOk_congr u _ _ ?_ hc
      intro x _ y _ hxy
      exact ⟨(hgetF x) ▸ hxy.1, (hgetF y) ▸ hxy.2⟩
    · have hsh : chainList (d.Delete k).1 (p ++ s) = chainList u (p ++ s) := by
        rw [hstate]
        rfl
      rw [hsh]
      exact hco.2.1
    · intro x hx
      have hsh : chainList (d.Delete k).1 (p ++ s) = chainList u (p ++ s) := by
        rw [hstate]
        rfl
      rw [hsh] at hx
      have hb := hco.2.2 x hx
      rw [hstate]
      exact hb
    · -- index permutation after the delete
      rw [hdataF, mapDel_eq_filter hwf.dataNodup]
      have h1 := hwf.dataPerm.filter (fun q => decide (q.1 ≠ k))
      refine h1.trans ?_
      have h2 : (p ++ i :: s).map (fun j => ((getNode d j).key, j)) =
          p.map (fun j => ((getNode d j).key, j)) ++
          ((getNode d i).key, i) :: s.map (fun j => ((getNode d j).key, j)) := by
        simp
      rw [h2, List.filter_append, List.filter_cons]
      have h3 : (decide (((getNode d i).key, i).1 ≠ k)) = false := by
        simp [hiKey]
      rw [h3]
      simp only [Bool.false_eq_true, if_false]
      have h4 : (p.map fun j => ((getNode d j).key, j)).filter
          (fun q => decide (q.1 ≠ k)) = p.map fun j => ((getNode d j).key, j) := by
        rw [List.filter_eq_self]
        intro q hq
        obtain ⟨j, hj, rfl⟩ := List.mem_map.mp hq
        simpa using hkp j hj
      have h5 : (s.map fun j => ((getNode d j).key, j)).filter
          (fun q => decide (q.1 ≠ k)) = s.map fun j => ((getNode d j).key, j) := by
        rw [List.filter_eq_self]
        intro q hq
        obtain ⟨j, hj, rfl⟩ := List.mem_map.mp hq
        simpa using hks j hj
      rw [h4, h5]
      have h6 : (p ++ s).map (fun j => ((getNode (d.Delete k).1 j).key, j)) =
          (p ++ s).map (fun j => ((getNode d j).key, j)) := by
        exact List.map_congr_left fun j _ => by rw [hkeyF j]
      rw [h6, List.map_append]
    · rw [hdataF, mapDel_eq_filter hwf.dataNodup]
      have hsub : ((d.data.filter fun q => decide (q.1 ≠ k)).map
          Prod.fst).Sublist (d.data.map Prod.fst) :=
        (List.filter_sublist d.data).map Prod.fst
      exact hsub.nodup hwf.dataNodup
    · rw [hstate]
      show u.len - 1 = _
      rw [hu, unlinkNode_len]
      have := hwf.lenEq
      rw [this]
      simp
      push_cast
      ring
  · rw [hstate]
    show ((getNode { u with data := mapDel u.data k, len := u.len - 1 } i).val,
      true) = ((getNode d i).val, true)
    have : (getNode { u with data := mapDel u.data k, len := u.len - 1 } i).val
        = (getNode u i).val := rfl
    rw [this, hu, val_unlinkNode]
  · rw [hstate]
    show u.len - 1 = d.len - 1
    rw [hu, unlinkNode_len]
  · rw [hstate]
    show u.head = d.head
    rw [hu, unlinkNode_head]
  · rw [hstate]
    show u.tail = d.tail
    rw [hu, unlinkNode_tail]
  · rw [hstate]
    show u.heap.length = d.heap.length
    rw [hu, unlinkNode_heap_length]

theorem map_decomp {α β : Type} (f : α → β) (l : List α) (a : List β)
    (b : β) (c : List β) (h : l.map f = a ++ b :: c) :
    ∃ q x s, l = q ++ x :: s ∧ q.map f = a ∧ f x = b ∧ s.map f = c := by
  induction a generalizing l with
  | nil =>
    cases l with
    | nil => simp at h
    | cons x xs =>
      simp only [List.map_cons, List.nil_append, List.cons.injEq] at h
      exact ⟨[], x, xs, rfl, rfl, h.1, h.2⟩
  | cons y ys ih =>
    cases l with
    | nil => simp at h
    | cons x xs =>
      simp only [List.map_cons, List.cons_append, List.cons.injEq] at h
      obtain ⟨q, x', s, hl, hq, hx, hs⟩ := ih xs h.2
      exact ⟨x :: q, x', s, by simp [hl], by simp [hq, h.1], hx, hs⟩

/-- Converting an observable decomposition of `Keys` into a chain
decomposition. -/
theorem Keys_decomp (d : OrderedDict K V) (ids : List Nat) (k : K)
    (kp ks : List K) (hwf : WF d ids) (hk : d.Keys = kp ++ k :: ks) :
    ∃ p i s, ids = p ++ i :: s ∧ (getNode d i).key = k ∧
      chainKeys d p = kp ∧ chainKeys d s = ks ∧
      mapGet d.data k = some i := by
  rw [Keys_eq d ids hwf] at hk
  obtain ⟨p, i, s, hids, hp, hkey, hs⟩ := map_decomp _ ids kp k ks hk
  refine ⟨p, i, s, hids, hkey, hp, hs, ?_⟩
  exact (mapGet_some_iff d ids hwf k i).mpr
    ⟨hids ▸ (List.mem_append_right p (List.mem_cons_self i s)), hkey⟩

/-- Claim C5: Delete on an absent key returns the zero value and false
and leaves the state untouched; Delete on a present key returns the
stored value and true, removes exactly that key at its position from
Keys and Values, decrements the count by one and leaves every other
key's membership and value alone.  Remove behaves exactly like Delete
with the value discarded. -/
theorem C5_Delete_Remove (d : OrderedDict K V) (ids : List Nat) (k : K)
    (hwf : WF d ids) :
    (d.Has k = false →
      d.Delete k = (d, default, false) ∧ d.Remove k = (d, false)) ∧
    (∀ kp ks vp vs v, d.Keys = kp ++ k :: ks → d.Values = vp ++ v :: vs →
      vp.length = kp.length →
      (d.Delete k).2 = (v, true) ∧
      (d.Delete k).1.Keys = kp ++ ks ∧
      (d.Delete k).1.Values = vp ++ vs ∧
      (d.Delete k).1.Len = d.Len - 1 ∧
      (d.Delete k).1.Has k = false ∧
      (∀ k', k' ≠ k → (d.Delete k).1.Has k' = d.Has k') ∧
      (∀ k', k' ≠ k → (d.Delete k).1.Get k' = d.Get k') ∧
      d.Remove k = ((d.Delete k).1, true)) := by
  constructor
  · intro hk
    have hget := Has_none d k hk
    have hdel := Delete_absent d k hget
    refine ⟨hdel, ?_⟩
    show ((d.Delete k).1, (d.Delete k).2.2) = (d, false)
    rw [hdel]
  · intro kp ks vp vs v hkeys hvals hlens
    obtain ⟨p, i, s, hids, hkey, hp, hs, hget⟩ :=
      Keys_decomp d ids k kp ks hwf hkeys
    subst hids
    obtain ⟨hwf2, hret, hkeyF, hvalF, hlenF, hdataF, -, -, -⟩ :=
      Delete_present_spec d p s i k hwf hget
    -- align the Values decomposition with the chain decomposition
    have hvals2 : chainVals d p ++ (getNode d i).val :: chainVals d s =
        vp ++ v :: vs := by
      rw [← hvals, Values_eq d _ hwf]
      simp [chainVals]
    have hlenp : (chainVals d p).length = vp.length := by
      rw [hlens, ← hp]
      simp [chainVals, chainKeys]
    obtain ⟨hvp, hcons⟩ :=
      List.append_inj hvals2 hlenp
    have hv : (getNode d i).val = v := by
      have := hcons
      simp only [List.cons.injEq] at this
      exact this.1
    have hvs : chainVals d s = vs := by
      have := hcons
      simp only [List.cons.injEq] at this
      exact this.2
    refine ⟨?_, ?_, ?_, ?_, ?_, ?_, ?_, ?_⟩
    · rw [hret, hv]
    · rw [Keys_eq _ _ hwf2, ← hp, ← hs]
      unfold chainKeys
      rw [List.map_append]
      congr 1 <;> exact List.map_congr_left fun j _ => hkeyF j
    · rw [Values_eq _ _ hwf2, ← hvp, ← hvs]
      unfold chainVals
      rw [List.map_append]
      congr 1 <;> exact List.map_congr_left fun j _ => hvalF j
    · show (d.Delete k).1.len = d.len - 1
      exact hlenF
    · unfold OrderedDict.Has
      rw [hdataF, mapGet_mapDel_self hwf.dataNodup]
      rfl
    · intro k' hk'
      unfold OrderedDict.Has
      rw [hdataF, mapGet_mapDel_ne hk']
    · intro k' hk'
      unfold OrderedDict.Get
      rw [hdataF, mapGet_mapDel_ne hk']
      cases hg' : mapGet d.data k' with
      | none => rfl
      | some j =>
        show ((getNode (d.Delete k).1 j).val, true) = ((getNode d j).val, true)
        rw [hvalF j]
    · show ((d.Delete k).1, (d.Delete k).2.2) = ((d.Delete k).1, true)
      rw [hret]

theorem C5_Delete_Remove_witness :
    WF dEx [2, 3, 4] ∧
    ((dEx.Has 2 = false →
        dEx.Delete 2 = (dEx, default, false) ∧ dEx.Remove 2 = (dEx, false)) ∧
     (∀ kp ks vp vs v, dEx.Keys = kp ++ 2 :: ks → dEx.Values = vp ++ v :: vs →
        vp.length = kp.length →
        (dEx.Delete 2).2 = (v, true) ∧
        (dEx.Delete 2).1.Keys = kp ++ ks ∧
        (dEx.Delete 2).1.Values = vp ++ vs ∧
        (dEx.Delete 2).1.Len = dEx.Len - 1 ∧
        (dEx.Delete 2).1.Has 2 = false ∧
        (∀ k', k' ≠ 2 → (dEx.Delete 2).1.Has k' = dEx.Has k') ∧
        (∀ k', k' ≠ 2 → (dEx.Delete 2).1.Get k' = dEx.Get k') ∧
        dEx.Remove 2 = ((dEx.Delete 2).1, true))) :=
  ⟨by decide, C5_Delete_Remove dEx [2, 3, 4] 2 (by decide)⟩

theorem Get_of_eq_fields (d f : OrderedDict K V) (k : K)
    (hdata : f.data = d.data)
    (hval : ∀ j, (getNode f j).val = (getNode d j).val) :
    f.Get k = d.Get k := by
  unfold OrderedDict.Get
  rw [hdata]
  cases hg : mapGet d.data k with
  | none => rfl
  | some j =>
    show ((getNode f j).val, true) = ((getNode d j).val, true)
    rw [hval j]

theorem Has_of_eq_data (d f : OrderedDict K V) (k : K)
    (hdata : f.data = d.data) : f.Has k = d.Has k := by
  unfold OrderedDict.Has
  rw [hdata]

/-- The node being moved is not a member of the shortened chain, which
stays duplicate-free. -/
theorem chain_mid_not_mem (d : OrderedDict K V) (p s : List Nat) (i : Nat)
    (hnd : (chainList d (p ++ i :: s)).Nodup) :
    i ∉ d.head :: (p ++ s) ++ [d.tail] ∧
    (d.head :: (p ++ s) ++ [d.tail]).Nodup := by
  have hsh : chainList d (p ++ i :: s) =
      (d.head :: p) ++ i :: (s ++ [d.tail]) := by simp [chainList]
  rw [hsh] at hnd
  have hperm : ((d.head :: p) ++ i :: (s ++ [d.tail])).Perm
      (i :: (d.head :: (p ++ s) ++ [d.tail])) := by
    refine (@List.perm_middle _ i (d.head :: p) (s ++ [d.tail])).trans ?_
    apply List.Perm.cons
    apply List.Perm.of_eq
    simp
  have hnd2 := hperm.nodup hnd
  exact ⟨(List.nodup_cons.mp hnd2).1, (List.nodup_cons.mp hnd2).2⟩

theorem MoveToEnd_absent (d : OrderedDict K V) (k : K)
    (hget : mapGet d.data k = none) : d.MoveToEnd k = (d, false) := by
  unfold OrderedDict.MoveToEnd
  rw [hget]

theorem MoveToStart_absent (d : OrderedDict K V) (k : K)
    (hget : mapGet d.data k = none) : d.MoveToStart k = (d, false) := by
  unfold OrderedDict.MoveToStart
  rw [hget]

/-- What `MoveToEnd` does on a present key: the node's chain position
moves to the end; index, count, keys and values are untouched. -/
theorem MoveToEnd_present_spec (d : OrderedDict K V) (p s : List Nat)
    (i : Nat) (k : K) (hwf : WF d (p ++ i :: s))
    (hget : mapGet d.data k = some i) :
    (d.MoveToEnd k).2 = true ∧
    WF (d.MoveToEnd k).1 (p ++ s ++ [i]) ∧
    (∀ j, (getNode (d.MoveToEnd k).1 j).key = (getNode d j).key) ∧
    (∀ j, (getNode (d.MoveToEnd k).1 j).val = (getNode d j).val) ∧
    (d.MoveToEnd k).1.data = d.data ∧ (d.MoveToEnd k).1.len = d.len := by
  set u := d.unlinkNode i with hu
  have hstate : d.MoveToEnd k = (u.linkToEnd i, true) := by
    unfold OrderedDict.MoveToEnd
    rw [hget]
  have hco : ChainOnly u (p ++ s) := unlink_mid d p s i hwf
  have hchainU : chainList u (p ++ s) = d.head :: (p ++ s) ++ [d.tail] := by
    simp [chainList, hu]
  obtain ⟨hinotmem, -⟩ := chain_mid_not_mem d p s i hwf.nodup
  have hiMem : i ∈ chainList d (p ++ i :: s) :=
    mem_chainList_of_mem d _ i (List.mem_append_right p (List.mem_cons_self i s))
  have hib := hwf.bounds i hiMem
  have hco2 : ChainOnly (u.linkToEnd i) (p ++ s ++ [i]) := by
    have h1 := linkToEnd_chain u (p ++ s) i hco
      (by rw [hchainU]; exact hinotmem)
      (by rw [hu, unlinkNode_heap_length]; exact hib.2)
      (by rw [hu, unlinkNode_head]; exact hib.1)
    have : p ++ s ++ [i] = (p ++ s) ++ [i] := by simp
    rw [this]
    exact h1
  have hkeyF : ∀ j, (getNode (d.MoveToEnd k).1 j).key = (getNode d j).key := by
    intro j
    rw [hstate]
    show (getNode (u.linkToEnd i) j).key = _
    rw [key_linkToEnd, hu, key_unlinkNode]
  have hvalF : ∀ j, (getNode (d.MoveToEnd k).1 j).val = (getNode d j).val := by
    intro j
    rw [hstate]
    show (getNode (u.linkToEnd i) j).val = _
    rw [val_linkToEnd, hu, val_unlinkNode]
  have hdataF : (d.MoveToEnd k).1.data = d.data := by
    rw [hstate]
    show (u.linkToEnd i).data = d.data
    rw [linkToEnd_data, hu, unlinkNode_data]
  have hlenF : (d.MoveToEnd k).1.len = d.len := by
    rw [hstate]
    show (u.linkToEnd i).len = d.len
    rw [linkToEnd_len, hu, unlinkNode_len]
  have hperm : (p ++ s ++ [i]).Perm (p ++ i :: s) := by
    refine (@List.perm_middle _ i (p ++ s) []).trans ?_
    refine List.Perm.trans ?_ (@List.perm_middle _ i p s).symm
    apply List.Perm.of_eq
    simp
  refine ⟨by rw [hstate], ?_, hkeyF, hvalF, hdataF, hlenF⟩
  refine WF.ofChainOnly d (d.MoveToEnd k).1 (p ++ i :: s) (p ++ s ++ [i])
    hwf ?_ hperm hdataF hlenF hkeyF
  rw [hstate]
  exact hco2

/-- What `MoveToStart` does on a present key. -/
theorem MoveToStart_present_spec (d : OrderedDict K V) (p s : List Nat)
    (i : Nat) (k : K) (hwf : WF d (p ++ i :: s))
    (hget : mapGet d.data k = some i) :
    (d.MoveToStart k).2 = true ∧
    WF (d.MoveToStart k).1 (i :: (p ++ s)) ∧
    (∀ j, (getNode (d.MoveToStart k).1 j).key = (getNode d j).key) ∧
    (∀ j, (getNode (d.MoveToStart k).1 j).val = (getNode d j).val) ∧
    (d.MoveToStart k).1.data = d.data ∧ (d.MoveToStart k).1.len = d.len := by
  set u := d.unlinkNode i with hu
  have hstate : d.MoveToStart k = (u.linkToStart i, true) := by
    unfold OrderedDict.MoveToStart
    rw [hget]
  have hco : ChainOnly u (p ++ s) := unlink_mid d p s i hwf
  have hchainU : chainList u (p ++ s) = d.head :: (p ++ s) ++ [d.tail] := by
    simp [chainList, hu]
  obtain ⟨hinotmem, -⟩ := chain_mid_not_mem d p s i hwf.nodup
  have hiMem : i ∈ chainList d (p ++ i :: s) :=
    mem_chainList_of_mem d _ i (List.mem_append_right p (List.mem_cons_self i s))
  have hib := hwf.bounds i hiMem
  have hco2 : ChainOnly (u.linkToStart i) (i :: (p ++ s)) :=
    linkToStart_chain u (p ++ s) i hco
      (by rw [hchainU]; exact hinotmem)
      (by rw [hu, unlinkNode_heap_length]; exact hib.2)
      (by rw [hu, unlinkNode_head]; exact hib.1)
  have hkeyF : ∀ j, (getNode (d.MoveToStart k).1 j).key = (getNode d j).key := by
    intro j
    rw [hstate]
    show (getNode (u.linkToStart i) j).key = _
    rw [key_linkToStart, hu, key_unlinkNode]
  have hvalF : ∀ j, (getNode (d.MoveToStart k).1 j).val = (getNode d j).val := by
    intro j
    rw [hstate]
    show (getNode (u.linkToStart i) j).val = _
    rw [val_linkToStart, hu, val_unlinkNode]
  have hdataF : (d.MoveToStart k).1.data = d.data := by
    rw [hstate]
    show (u.linkToStart i).data = d.data
    rw [linkToStart_data, hu, unlinkNode_data]
  have hlenF : (d.MoveToStart k).1.len = d.len := by
    rw [hstate]
    show (u.linkToStart i).len = d.len
    rw [linkToStart_len, hu, unlinkNode_len]
  have hperm : (i :: (p ++ s)).Perm (p ++ i :: s) :=
    (@List.perm_middle _ i p s).symm
  refine ⟨by rw [hstate], ?_, hkeyF, hvalF, hdataF, hlenF⟩
  refine WF.ofChainOnly d (d.MoveToStart k).1 (p ++ i :: s) (i :: (p ++ s))
    hwf ?_ hperm hdataF hlenF hkeyF
  rw [hstate]
  exact hco2

/-- Claim C7: MoveToEnd and MoveToStart return false and change nothing
when the key is absent; when the key is already in the requested
position (last for MoveToEnd, first for MoveToStart) they return true
and change nothing observable. -/
theorem C7_move_boundary_noop (d : OrderedDict K V) (ids : List Nat)
    (k : K) (hwf : WF d ids) :
    (d.Has k = false →
      d.MoveToEnd k = (d, false) ∧ d.MoveToStart k = (d, false)) ∧
    (∀ ks, d.Keys = ks ++ [k] →
      (d.MoveToEnd k).2 = true ∧
      (d.MoveToEnd k).1.Keys = d.Keys ∧
      (d.MoveToEnd k).1.Values = d.Values ∧
      (d.MoveToEnd k).1.Len = d.Len ∧
      (∀ k', (d.MoveToEnd k).1.Get k' = d.Get k') ∧
      (∀ k', (d.MoveToEnd k).1.Has k' = d.Has k')) ∧
    (∀ ks, d.Keys = k :: ks →
      (d.MoveToStart k).2 = true ∧
      (d.MoveToStart k).1.Keys = d.Keys ∧
      (d.MoveToStart k).1.Values = d.Values ∧
      (d.MoveToStart k).1.Len = d.Len ∧
      (∀ k', (d.MoveToStart k).1.Get k' = d.Get k') ∧
      (∀ k', (d.MoveToStart k).1.Has k' = d.Has k')) := by
  refine ⟨?_, ?_, ?_⟩
  · intro hk
    have hget := Has_none d k hk
    exact ⟨MoveToEnd_absent d k hget, MoveToStart_absent d k hget⟩
  · intro ks hkeys
    obtain ⟨p, i, s, hids, hkey, hp, hs, hget⟩ :=
      Keys_decomp d ids k ks [] hwf (by simpa using hkeys)
    have hsnil : s = [] := by
      have := hs
      unfold chainKeys at this
      exact List.map_eq_nil.mp this
    subst hsnil
    subst hids
    obtain ⟨hret, hwf2, hkeyF, hvalF, hdataF, hlenF⟩ :=
      MoveToEnd_present_spec d p [] i k hwf hget
    have hidsEq : p ++ [] ++ [i] = p ++ i :: [] := by simp
    refine ⟨hret, ?_, ?_, by rw [OrderedDict.Len, OrderedDict.Len, hlenF],
      fun k' => Get_of_eq_fields d _ k' hdataF hvalF,
      fun k' => Has_of_eq_data d _ k' hdataF⟩
    · rw [Keys_eq _ _ hwf2, Keys_eq d _ hwf]
      unfold chainKeys
      rw [hidsEq]
      exact List.map_congr_left fun j _ => hkeyF j
    · rw [Values_eq _ _ hwf2, Values_eq d _ hwf]
      unfold chainVals
      rw [hidsEq]
      exact List.map_congr_left fun j _ => hvalF j
  · intro ks hkeys
    obtain ⟨p, i, s, hids, hkey, hp, hs, hget⟩ :=
      Keys_decomp d ids k [] ks hwf (by simpa using hkeys)
    have hpnil : p = [] := by
      have := hp
      unfold chainKeys at this
      exact List.map_eq_nil.mp this
    subst hpnil
    subst hids
    obtain ⟨hret, hwf2, hkeyF, hvalF, hdataF, hlenF⟩ :=
      MoveToStart_present_spec d [] s i k hwf hget
    have hidsEq : i :: ([] ++ s) = [] ++ i :: s := by simp
    refine ⟨hret, ?_, ?_, by rw [OrderedDict.Len, OrderedDict.Len, hlenF],
      fun k' => Get_of_eq_fields d _ k' hdataF hvalF,
      fun k' => Has_of_eq_data d _ k' hdataF⟩
    · rw [Keys_eq _ _ hwf2, Keys_eq d _ hwf]
      unfold chainKeys
      rw [hidsEq]
      exact List.map_congr_left fun j _ => hkeyF j
    · rw [Values_eq _ _ hwf2, Values_eq d _ hwf]
      unfold chainVals
      rw [hidsEq]
      exact List.map_congr_left fun j _ => hvalF j

theorem C7_move_boundary_noop_witness :
    WF dEx [2, 3, 4] ∧
    ((dEx.Has 9 = false →
        dEx.MoveToEnd 9 = (dEx, false) ∧ dEx.MoveToStart 9 = (dEx, false)) ∧
     (∀ ks, dEx.Keys = ks ++ [9] →
        (dEx.MoveToEnd 9).2 = true ∧
        (dEx.MoveToEnd 9).1.Keys = dEx.Keys ∧
        (dEx.MoveToEnd 9).1.Values = dEx.Values ∧
        (dEx.MoveToEnd 9).1.Len = dEx.Len ∧
        (∀ k', (dEx.MoveToEnd 9).1.Get k' = dEx.Get k') ∧
        (∀ k', (dEx.MoveToEnd 9).1.Has k' = dEx.Has k')) ∧
     (∀ ks, dEx.Keys = 9 :: ks →
        (dEx.MoveToStart 9).2 = true ∧
        (dEx.MoveToStart 9).1.Keys = dEx.Keys ∧
        (dEx.MoveToStart 9).1.Values = dEx.Values ∧
        (dEx.MoveToStart 9).1.Len = dEx.Len ∧
        (∀ k', (dEx.MoveToStart 9).1.Get k' = dEx.Get k') ∧
        (∀ k', (dEx.MoveToStart 9).1.Has k' = dEx.Has k'))) :=
  ⟨by decide, C7_move_boundary_noop dEx [2, 3, 4] 9 (by decide)⟩

theorem MoveAfter_noop (d : OrderedDict K V) (k a : K)
    (h : mapGet d.data a = none ∨ mapGet d.data k = none) :
    d.MoveAfter k a = (d, false) := by
  unfold OrderedDict.MoveAfter
  rcases h with h | h
  · rw [h]
  · cases hg : mapGet d.data a with
    | none => rfl
    | some ai => rw [h]

/-- What `MoveAfter` does when both keys are present and distinct: the
moved node is re-linked immediately after the target node; index, count,
keys and values are untouched. -/
theorem MoveAfter_present_spec (d : OrderedDict K V) (p s p1 s1 : List Nat)
    (i ai : Nat) (k a : K) (hwf : WF d (p ++ i :: s))
    (hgetK : mapGet d.data k = some i)
    (hgetA : mapGet d.data a = some ai)
    (hsplit2 : p ++ s = p1 ++ ai :: s1) :
    (d.MoveAfter k a).2 = true ∧
    WF (d.MoveAfter k a).1 (p1 ++ ai :: i :: s1) ∧
    (∀ j, (getNode (d.MoveAfter k a).1 j).key = (getNode d j).key) ∧
    (∀ j, (getNode (d.MoveAfter k a).1 j).val = (getNode d j).val) ∧
    (d.MoveAfter k a).1.data = d.data ∧ (d.MoveAfter k a).1.len = d.len := by
  set u := d.unlinkNode i with hu
  have hstate : d.MoveAfter k a = (u.linkAfter i ai, true) := by
    unfold OrderedDict.MoveAfter
    rw [hgetA, hgetK]
  have hco : ChainOnly u (p ++ s) := unlink_mid d p s i hwf
  rw [hsplit2] at hco
  have hchainU : chainList u (p1 ++ ai :: s1) =
      d.head :: (p ++ s) ++ [d.tail] := by
    simp [chainList, hu, hsplit2]
  obtain ⟨hinotmem, -⟩ := chain_mid_not_mem d p s i hwf.nodup
  have hiMem : i ∈ chainList d (p ++ i :: s) :=
    mem_chainList_of_mem d _ i (List.mem_append_right p (List.mem_cons_self i s))
  have hib := hwf.bounds i hiMem
  have hco2 : ChainOnly (u.linkAfter i ai) (p1 ++ ai :: i :: s1) :=
    linkAfter_chain u p1 s1 ai i hco
      (by rw [hchainU]; exact hinotmem)
      (by rw [hu, unlinkNode_heap_length]; exact hib.2)
      (by rw [hu, unlinkNode_head]; exact hib.1)
  have hkeyF : ∀ j, (getNode (d.MoveAfter k a).1 j).key = (getNode d j).key := by
    intro j
    rw [hstate]
    show (getNode (u.linkAfter i ai) j).key = _
    rw [key_linkAfter, hu, key_unlinkNode]
  have hvalF : ∀ j, (getNode (d.MoveAfter k a).1 j).val = (getNode d j).val := by
    intro j
    rw [hstate]
    show (getNode (u.linkAfter i ai) j).val = _
    rw [val_linkAfter, hu, val_unlinkNode]
  have hdataF : (d.MoveAfter k a).1.data = d.data := by
    rw [hstate]
    show (u.linkAfter i ai).data = d.data
    rw [linkAfter_data, hu, unlinkNode_data]
  have hlenF : (d.MoveAfter k a).1.len = d.len := by
    rw [hstate]
    show (u.linkAfter i ai).len = d.len
    rw [linkAfter_len, hu, unlinkNode_len]
  have hperm : (p1 ++ ai :: i :: s1).Perm (p ++ i :: s) := by
    have h1 : (p1 ++ ai :: i :: s1).Perm (i :: (p1 ++ ai :: s1)) := by
      have e1 : p1 ++ ai :: i :: s1 = (p1 ++ [ai]) ++ i :: s1 := by simp
      have e2 : p1 ++ ai :: s1 = (p1 ++ [ai]) ++ s1 := by simp
      rw [e1, e2]
      exact List.perm_middle
    refine h1.trans ?_
    rw [← hsplit2]
    exact (@List.perm_middle _ i p s).symm
  refine ⟨by rw [hstate], ?_, hkeyF, hvalF, hdataF, hlenF⟩
  refine WF.ofChainOnly d (d.MoveAfter k a).1 (p ++ i :: s)
    (p1 ++ ai :: i :: s1) hwf ?_ hperm hdataF hlenF hkeyF
  rw [hstate]
  exact hco2

/-- Claim C6: MoveAfter on two distinct present keys succeeds and places
the moved key immediately after the target key, preserving the relative
order of all other keys, the count and every key's value; if either key
is absent it returns false and leaves the state untouched. -/
theorem C6_MoveAfter (d : OrderedDict K V) (ids : List Nat) (k a : K)
    (hwf : WF d ids) :
    ((d.Has k = false ∨ d.Has a = false) → d.MoveAfter k a = (d, false)) ∧
    (∀ q1 q2 r1 r2, k ≠ a → d.Keys = q1 ++ k :: q2 →
      q1 ++ q2 = r1 ++ a :: r2 →
      (d.MoveAfter k a).2 = true ∧
      (d.MoveAfter k a).1.Keys = r1 ++ a :: k :: r2 ∧
      (d.MoveAfter k a).1.Len = d.Len ∧
      (∀ k', (d.MoveAfter k a).1.Get k' = d.Get k') ∧
      (∀ k', (d.MoveAfter k a).1.Has k' = d.Has k')) := by
  constructor
  · intro hk
    refine MoveAfter_noop d k a ?_
    rcases hk with hk | hk
    · exact Or.inr (Has_none d k hk)
    · exact Or.inl (Has_none d a hk)
  · intro q1 q2 r1 r2 hne hkeys hsplit
    obtain ⟨p, i, s, hids, hkey, hp, hs, hgetK⟩ :=
      Keys_decomp d ids k q1 q2 hwf hkeys
    subst hids
    have hmapPS : (p ++ s).map (fun j => (getNode d j).key) = r1 ++ a :: r2 := by
      rw [List.map_append]
      unfold chainKeys at hp hs
      rw [hp, hs, hsplit]
    obtain ⟨p1, ai, s1, hsplit2, hp1, hai, hs1⟩ :=
      map_decomp _ (p ++ s) r1 a r2 hmapPS
    have haiMem : ai ∈ p ++ i :: s := by
      have : ai ∈ p ++ s := by
        rw [hsplit2]
        exact List.mem_append_right p1 (List.mem_cons_self ai s1)
      rcases List.mem_append.mp this with h | h
      · exact List.mem_append_left _ h
      · exact List.mem_append_right _ (List.mem_cons_of_mem i h)
    have hgetA : mapGet d.data a = some ai :=
      (mapGet_some_iff d _ hwf a ai).mpr ⟨haiMem, hai⟩
    obtain ⟨hret, hwf2, hkeyF, hvalF, hdataF, hlenF⟩ :=
      MoveAfter_present_spec d p s p1 s1 i ai k a hwf hgetK hgetA hsplit2
    refine ⟨hret, ?_, by rw [OrderedDict.Len, OrderedDict.Len, hlenF],
      fun k' => Get_of_eq_fields d _ k' hdataF hvalF,
      fun k' => Has_of_eq_data d _ k' hdataF⟩
    rw [Keys_eq _ _ hwf2]
    unfold chainKeys
    have hcongr : (p1 ++ ai :: i :: s1).map
        (fun j => (getNode (d.MoveAfter k a).1 j).key) =
        (p1 ++ ai :: i :: s1).map (fun j => (getNode d j).key) :=
      List.map_congr_left fun j _ => hkeyF j
    rw [hcongr]
    simp only [List.map_append, List.map_cons]
    rw [hp1, hs1, hai, hkey]

theorem C6_MoveAfter_witness :
    WF dEx [2, 3, 4] ∧
    (((dEx.Has 1 = false ∨ dEx.Has 3 = false) →
        dEx.MoveAfter 1 3 = (dEx, false)) ∧
     (∀ q1 q2 r1 r2, 1 ≠ 3 → dEx.Keys = q1 ++ 1 :: q2 →
        q1 ++ q2 = r1 ++ 3 :: r2 →
        (dEx.MoveAfter 1 3).2 = true ∧
        (dEx.MoveAfter 1 3).1.Keys = r1 ++ 3 :: 1 :: r2 ∧
        (dEx.MoveAfter 1 3).1.Len = dEx.Len ∧
        (∀ k', (dEx.MoveAfter 1 3).1.Get k' = dEx.Get k') ∧
        (∀ k', (dEx.MoveAfter 1 3).1.Has k' = dEx.Has k'))) :=
  ⟨by decide, C6_MoveAfter dEx [2, 3, 4] 1 3 (by decide)⟩

/-! ### Equivalence of the two source variants (claim C10) -/

theorem dict_ext (d1 d2 : OrderedDict K V) (hheap : d1.heap = d2.heap)
    (hdata : d1.data = d2.data) (hhead : d1.head = d2.head)
    (htail : d1.tail = d2.tail) (hlen : d1.len = d2.len) : d1 = d2 := by
  cases d1; cases d2; simp_all

theorem heap_ext (d1 d2 : OrderedDict K V)
    (hlen : d1.heap.length = d2.heap.length)
    (hget : ∀ j, getNode d1 j = getNode d2 j) : d1.heap = d2.heap := by
  apply List.ext_getElem hlen
  intro i h1 h2
  have hg := hget i
  rw [getNode, getNode, List.getD_eq_getElem?_getD, List.getD_eq_getElem?_getD,
    List.getElem?_eq_getElem h1, List.getElem?_eq_getElem h2] at hg
  simpa using hg

theorem Delete2_eq (d : OrderedDict K V) (k : K) :
    Pkg2.Delete d k = d.Delete k := by
  unfold Pkg2.Delete OrderedDict.Delete OrderedDict.unlinkNode
  rfl

theorem Remove2_eq (d : OrderedDict K V) (k : K) :
    Pkg2.Remove d k = d.Remove k := by
  unfold Pkg2.Remove OrderedDict.Remove
  rw [Delete2_eq]

theorem Len2_eq (d : OrderedDict K V) : Pkg2.Len d = d.Len := rfl

theorem Has2_eq (d : OrderedDict K V) (k : K) : Pkg2.Has d k = d.Has k := by
  unfold Pkg2.Has OrderedDict.Has OrderedDict.Get
  cases hg : mapGet d.data k <;> rfl

/-- On a well-formed state the secondary variant's `Set` (same writes in
a different order) produces exactly the same state as the primary one. -/
theorem Set2_eq (d : OrderedDict K V) (ids : List Nat) (k : K) (v : V)
    (hwf : WF d ids) : Pkg2.Set d k v = d.Set k v := by
  unfold Pkg2.Set OrderedDict.Set
  cases hget : mapGet d.data k with
  | some i => rfl
  | none =>
    have hbounds := hwf.bounds
    have htmem : d.tail ∈ chainList d ids := by simp [chainList]
    have htLt : d.tail < d.heap.length := (hbounds d.tail htmem).2
    -- the last node of the chain
    have hAne : (d.head :: ids) ≠ [] := by simp
    obtain ⟨L, hL'⟩ : ∃ L, (d.head :: ids).getLast? = some L :=
      ⟨(d.head :: ids).getLast hAne, List.getLast?_eq_getLast _ hAne⟩
    have hLmem : L ∈ d.head :: ids := by
      have h1 := List.getLast?_eq_getLast (d.head :: ids) hAne
      rw [h1] at hL'
      have h2 : (d.head :: ids).getLast hAne = L := by simpa using hL'
      exact h2 ▸ List.getLast_mem hAne
    have hokA : linksOk d ((d.head :: ids) ++ [d.tail]) := by
      have := hwf.links
      simpa [chainList] using this
    have hLt : linkRel d L d.tail := linksOk_last_prev d _ _ L hokA hL'
    have hLmem2 : L ∈ chainList d ids := by
      rcases List.mem_cons.mp hLmem with rfl | h
      · simp [chainList]
      · exact mem_chainList_of_mem d ids L h
    have hLLt : L < d.heap.length := (hbounds L hLmem2).2
    have hLtail : L ≠ d.tail := by
      intro he
      have hnd := hwf.nodup
      have : (chainList d ids) = (d.head :: ids) ++ [d.tail] := by
        simp [chainList]
      rw [this] at hnd
      have hdisj := (List.nodup_append.mp hnd).2.2
      exact hdisj hLmem (by simp [he])
    set nd : Node K V := { prev := none, next := none, key := k, val := v }
      with hnd
    set a1 := alloc d nd with ha1
    set nn := d.heap.length with hnn
    have hgetA : ∀ j, getNode a1.1 j = if j = nn then nd else getNode d j :=
      getNode_alloc d nd
    have hLa : (getNode a1.1 a1.1.tail).prev = some L := by
      show (getNode a1.1 d.tail).prev = some L
      rw [hgetA, if_neg (Nat.ne_of_lt htLt)]
      exact hLt.2
    have hLnn : L ≠ nn := Nat.ne_of_lt hLLt
    have htnn : d.tail ≠ nn := Nat.ne_of_lt htLt
    have hnnLt : nn < a1.1.heap.length := by simp [ha1, hnn]
    have hLLt2 : L < a1.1.heap.length := by simp [ha1]; omega
    have htLt2 : d.tail < a1.1.heap.length := by simp [ha1]; omega
    -- the primary target, via the linkToEnd table
    have htab := getNode_linkToEnd a1.1
      (by show (getNode a1.1 a1.1.tail).prev = some L; exact hLa)
      hLnn (by show a1.1.tail ≠ nn; exact htnn)
      (by show L ≠ a1.1.tail; exact hLtail) hnnLt hLLt2
      (by show a1.1.tail < a1.1.heap.length; exact htLt2)
    -- the secondary write sequence
    set w1 := setPrev a1.1 a1.1.tail (some nn) with hw1
    set w2 := ptrSetNext w1 (getNode a1.1 a1.1.tail).prev (some nn) with hw2
    set w3 := setNext w2 nn (some w2.tail) with hw3
    set w4 := setPrev w3 nn (getNode a1.1 a1.1.tail).prev with hw4
    have hw2' : w2 = setNext w1 L (some nn) := by rw [hw2, hLa]; rfl
    have htail2 : a1.1.tail = d.tail := rfl
    have hLtail2 : L ≠ a1.1.tail := hLtail
    have htnn2 : a1.1.tail ≠ nn := htnn
    have hw1lt : ∀ x, x < a1.1.heap.length → x < w1.heap.length := by
      intro x hx
      simpa [hw1] using hx
    have hw2lt : ∀ x, x < a1.1.heap.length → x < w2.heap.length := by
      intro x hx
      simpa [hw2', hw1] using hx
    have hw3lt : ∀ x, x < a1.1.heap.length → x < w3.heap.length := by
      intro x hx
      simpa [hw3, hw2', hw1] using hx
    have hnodeA : getNode a1.1 nn = nd := (hgetA nn).trans (if_pos rfl)
    have hw2tail : w2.tail = a1.1.tail := by simp [hw2', hw1]
    have hcore : w4 = a1.1.linkToEnd nn := by
      refine dict_ext _ _ ?_ ?_ ?_ ?_ ?_
      · refine heap_ext _ _ ?_ ?_
        · simp [hw4, hw3, hw2', hw1]
        · intro j
          rw [htab j]
          by_cases hj1 : j = nn
          · subst hj1
            rw [if_pos rfl]
            have e4 : getNode w4 nn = { getNode w3 nn with prev := some L } := by
              rw [hw4, hLa]
              exact getNode_setPrev_self _ (hw3lt nn hnnLt) _
            have e3 : getNode w3 nn =
                { getNode w2 nn with next := some a1.1.tail } := by
              rw [hw3, hw2tail]
              exact getNode_setNext_self _ (hw2lt nn hnnLt) _
            have e2 : getNode w2 nn = getNode w1 nn := by
              rw [hw2']
              exact getNode_setNext_ne _ hLnn _
            have e1 : getNode w1 nn = nd := by
              rw [hw1, getNode_setPrev_ne _ htnn2]
              exact hnodeA
            rw [e4, e3, e2, e1, hnodeA]
          · rw [if_neg hj1]
            by_cases hj2 : j = L
            · rw [hj2, if_pos rfl]
              have e4 : getNode w4 L = getNode w3 L := by
                rw [hw4, hLa]
                exact getNode_setPrev_ne _ (Ne.symm hLnn) _
              have e3 : getNode w3 L = getNode w2 L := by
                rw [hw3]
                exact getNode_setNext_ne _ (Ne.symm hLnn) _
              have e2 : getNode w2 L =
                  { getNode w1 L with next := some nn } := by
                rw [hw2']
                exact getNode_setNext_self _ (hw1lt L hLLt2) _
              have e1 : getNode w1 L = getNode a1.1 L := by
                rw [hw1]
                exact getNode_setPrev_ne _ (Ne.symm hLtail2) _
              rw [e4, e3, e2, e1]
            · rw [if_neg hj2]
              by_cases hj3 : j = a1.1.tail
              · rw [hj3, if_pos rfl]
                have e4 : getNode w4 a1.1.tail = getNode w3 a1.1.tail := by
                  rw [hw4, hLa]
                  exact getNode_setPrev_ne _ (Ne.symm htnn2) _
                have e3 : getNode w3 a1.1.tail = getNode w2 a1.1.tail := by
                  rw [hw3]
                  exact getNode_setNext_ne _ (Ne.symm htnn2) _
                have e2 : getNode w2 a1.1.tail = getNode w1 a1.1.tail := by
                  rw [hw2']
                  exact getNode_setNext_ne _ hLtail2 _
                have e1 : getNode w1 a1.1.tail =
                    { getNode a1.1 a1.1.tail with prev := some nn } := by
                  rw [hw1]
                  exact getNode_setPrev_self _ htLt2 _
                rw [e4, e3, e2, e1]
              · rw [if_neg hj3]
                have e4 : getNode w4 j = getNode w3 j := by
                  rw [hw4, hLa]
                  exact getNode_setPrev_ne _ (fun h => hj1 h.symm) _
                have e3 : getNode w3 j = getNode w2 j := by
                  rw [hw3]
                  exact getNode_setNext_ne _ (fun h => hj1 h.symm) _
                have e2 : getNode w2 j = getNode w1 j := by
                  rw [hw2']
                  exact getNode_setNext_ne _ (fun h => hj2 h.symm) _
                have e1 : getNode w1 j = getNode a1.1 j := by
                  rw [hw1]
                  exact getNode_setPrev_ne _ (fun h => hj3 h.symm) _
                rw [e4, e3, e2, e1]
      · simp [hw4, hw3, hw2', hw1]
      · simp [hw4, hw3, hw2', hw1]
      · simp [hw4, hw3, hw2', hw1]
      · simp [hw4, hw3, hw2', hw1]
    show { w4 with data := mapPut w4.data k nn, len := w4.len + 1 } =
      { (a1.1.linkToEnd nn) with
        data := mapPut (a1.1.linkToEnd nn).data k nn,
        len := (a1.1.linkToEnd nn).len + 1 }
    rw [hcore]

/-- The operations both variants define, as commands. -/
inductive Cmd2 (K V : Type) where
  | setC (k : K) (v : V)
  | getC (k : K)
  | deleteC (k : K)
  | removeC (k : K)
  | lenC
  | hasC (k : K)
  | keysC
  | valuesC
  | allC
deriving DecidableEq

/-- The value an operation returns to the caller. -/
inductive Output (K V : Type) where
  | unitO
  | valBoolO (r : V × Bool)
  | boolO (b : Bool)
  | intO (n : Int)
  | keysO (l : List K)
  | valsO (l : List V)
  | pairsO (l : List (K × V))
deriving DecidableEq

/-- One step of the primary variant. -/
def step1 (d : OrderedDict K V) : Cmd2 K V → OrderedDict K V × Output K V
  | .setC k v => (d.Set k v, .unitO)
  | .getC k => (d, .valBoolO (d.Get k))
  | .deleteC k => ((d.Delete k).1, .valBoolO ((d.Delete k).2.1, (d.Delete k).2.2))
  | .removeC k => ((d.Remove k).1, .boolO (d.Remove k).2)
  | .lenC => (d, .intO d.Len)
  | .hasC k => (d, .boolO (d.Has k))
  | .keysC => (d, .keysO d.Keys)
  | .valuesC => (d, .valsO d.Values)
  | .allC => (d, .pairsO d.All)

/-- One step of the secondary variant (`New`, `NewWithCapacity`, `Get`,
`Keys`, `Values` and `All` are character-for-character the primary
variant's code and are shared). -/
def step2 (d : OrderedDict K V) : Cmd2 K V → OrderedDict K V × Output K V
  | .setC k v => (Pkg2.Set d k v, .unitO)
  | .getC k => (d, .valBoolO (d.Get k))
  | .deleteC k => ((Pkg2.Delete d k).1,
      .valBoolO ((Pkg2.Delete d k).2.1, (Pkg2.Delete d k).2.2))
  | .removeC k => ((Pkg2.Remove d k).1, .boolO (Pkg2.Remove d k).2)
  | .lenC => (d, .intO (Pkg2.Len d))
  | .hasC k => (d, .boolO (Pkg2.Has d k))
  | .keysC => (d, .keysO d.Keys)
  | .valuesC => (d, .valsO d.Values)
  | .allC => (d, .pairsO d.All)

/-- Run a command sequence with the primary variant, collecting the final
state and all outputs. -/
def run1 : OrderedDict K V → List (Cmd2 K V) →
    OrderedDict K V × List (Output K V)
  | d, [] => (d, [])
  | d, c :: cs =>
    let r := step1 d c
    let rest := run1 r.1 cs
    (rest.1, r.2 :: rest.2)

/-- Run a command sequence with the secondary variant. -/
def run2 : OrderedDict K V → List (Cmd2 K V) →
    OrderedDict K V × List (Output K V)
  | d, [] => (d, [])
  | d, c :: cs =>
    let r := step2 d c
    let rest := run2 r.1 cs
    (rest.1, r.2 :: rest.2)

theorem Set_wf_exists (d : OrderedDict K V) (ids : List Nat) (k : K) (v : V)
    (hwf : WF d ids) : ∃ ids', WF (d.Set k v) ids' := by
  cases hget : mapGet d.data k with
  | some i => exact ⟨ids, Set_present_wf d ids k v i hwf hget⟩
  | none => exact ⟨ids ++ [d.heap.length], (Set_absent_spec d ids k v hwf hget).1⟩

theorem Delete_wf_exists (d : OrderedDict K V) (ids : List Nat) (k : K)
    (hwf : WF d ids) : ∃ ids', WF (d.Delete k).1 ids' := by
  cases hget : mapGet d.data k with
  | none =>
    rw [Delete_absent d k hget]
    exact ⟨ids, hwf⟩
  | some i =>
    have hi : i ∈ ids := ((mapGet_some_iff d ids hwf k i).mp hget).1
    obtain ⟨p, s, rfl⟩ := List.append_of_mem hi
    exact ⟨p ++ s, (Delete_present_spec d p s i k hwf hget).1⟩

theorem step1_wf (d : OrderedDict K V) (ids : List Nat) (c : Cmd2 K V)
    (hwf : WF d ids) : ∃ ids', WF (step1 d c).1 ids' := by
  cases c with
  | setC k v => exact Set_wf_exists d ids k v hwf
  | deleteC k => exact Delete_wf_exists d ids k hwf
  | removeC k =>
    show ∃ ids', WF (d.Remove k).1 ids'
    unfold OrderedDict.Remove
    exact Delete_wf_exists d ids k hwf
  | getC k => exact ⟨ids, hwf⟩
  | lenC => exact ⟨ids, hwf⟩
  | hasC k => exact ⟨ids, hwf⟩
  | keysC => exact ⟨ids, hwf⟩
  | valuesC => exact ⟨ids, hwf⟩
  | allC => exact ⟨ids, hwf⟩

theorem step2_eq (d : OrderedDict K V) (ids : List Nat) (hwf : WF d ids)
    (c : Cmd2 K V) : step2 d c = step1 d c := by
  cases c with
  | setC k v =>
    show (Pkg2.Set d k v, Output.unitO) = (d.Set k v, Output.unitO)
    rw [Set2_eq d ids k v hwf]
  | deleteC k =>
    show ((Pkg2.Delete d k).1, _) = ((d.Delete k).1, _)
    rw [Delete2_eq]
  | removeC k =>
    show ((Pkg2.Remove d k).1, _) = ((d.Remove k).1, _)
    rw [Remove2_eq]
  | getC k => rfl
  | lenC => rfl
  | hasC k =>
    show (d, Output.boolO (Pkg2.Has d k)) = (d, Output.boolO (d.Has k))
    rw [Has2_eq]
  | keysC => rfl
  | valuesC => rfl
  | allC => rfl

theorem run2_eq (cmds : List (Cmd2 K V)) :
    ∀ (d : OrderedDict K V) (ids : List Nat), WF d ids →
      run2 d cmds = run1 d cmds := by
  induction cmds with
  | nil => intro d ids _; rfl
  | cons c cs ih =>
    intro d ids hwf
    obtain ⟨ids', hwf'⟩ := step1_wf d ids c hwf
    show ((run2 (step2 d c).1 cs).1, (step2 d c).2 :: (run2 (step2 d c).1 cs).2)
      = ((run1 (step1 d c).1 cs).1, (step1 d c).2 :: (run1 (step1 d c).1 cs).2)
    rw [step2_eq d ids hwf c, ih (step1 d c).1 ids' hwf']

/-- Claim C10: starting from a fresh container (either constructor, whose
code is identical in the two variants), every sequence of the operations
both variants define produces the same outputs and the same final state
under the primary and the secondary variant, so in particular identical
Keys() and Values() sequences at every point. -/
theorem C10_variants_equivalent (cmds : List (Cmd2 K V)) (c : Int) :
    run2 (New : OrderedDict K V) cmds = run1 New cmds ∧
    run2 (NewWithCapacity c : OrderedDict K V) cmds =
      run1 (NewWithCapacity c) cmds ∧
    (NewWithCapacity c : OrderedDict K V) = New :=
  ⟨run2_eq cmds New [] wf_New, run2_eq cmds (NewWithCapacity c) [] wf_New,
    rfl⟩

/-! ### Clear behaves like a fresh construction (claim C8)

`Clear` installs fresh sentinels at the top of the arena and empties the
index, so the post-`Clear` state is the fresh state shifted by the old
arena size.  The `ShiftRel` relation makes that precise, every operation
preserves it, and related states are observationally identical — for
arbitrary subsequent operation sequences, including the corrupting
self-target `MoveAfter`. -/

def shiftPtr (L : Nat) : Option Nat → Option Nat :=
  Option.map (· + L)

def shiftNode (L : Nat) (n : Node K V) : Node K V :=
  { prev := shiftPtr L n.prev, next := shiftPtr L n.next,
    key := n.key, val := n.val }

/-- `d1` is `d2` with every arena address moved up by `L` (and `L` junk
cells below that are never referenced). -/
def ShiftRel (L : Nat) (d1 d2 : OrderedDict K V) : Prop :=
  d1.heap.length = d2.heap.length + L ∧
  d1.head = d2.head + L ∧ d1.tail = d2.tail + L ∧ d1.len = d2.len ∧
  d1.data = d2.data.map (fun q => (q.1, q.2 + L)) ∧
  ∀ j, getNode d1 (j + L) = shiftNode L (getNode d2 j)

@[simp] theorem shiftNode_default (L : Nat) :
    shiftNode L (default : Node K V) = default := rfl

theorem ShiftRel.write {L : Nat} {d1 d2 : OrderedDict K V} (h : ShiftRel L d1 d2)
    (i : Nat) (n : Node K V) :
    ShiftRel L (writeNode d1 (i + L) (shiftNode L n)) (writeNode d2 i n) := by
  obtain ⟨hlen, hhead, htail, hl, hdata, hget⟩ := h
  refine ⟨by simpa using hlen, by simpa using hhead, by simpa using htail,
    by simpa using hl, by simpa using hdata, ?_⟩
  intro j
  rw [getNode_writeNode, getNode_writeNode]
  by_cases hij : i = j
  · subst hij
    by_cases hlt : i < d2.heap.length
    · rw [if_pos ⟨rfl, by omega⟩, if_pos ⟨rfl, hlt⟩]
    · rw [if_neg, if_neg]
      · exact hget i
      · rintro ⟨-, h2⟩; exact hlt h2
      · rintro ⟨-, h2⟩; omega
  · rw [if_neg, if_neg]
    · exact hget j
    · rintro ⟨h1, -⟩; exact hij h1
    · rintro ⟨h1, -⟩; exact hij (by omega)

theorem ShiftRel.setNextR {L : Nat} {d1 d2 : OrderedDict K V} (h : ShiftRel L d1 d2)
    (i : Nat) (q : Option Nat) :
    ShiftRel L (setNext d1 (i + L) (shiftPtr L q)) (setNext d2 i q) := by
  have h1 := h.write i { getNode d2 i with next := q }
  have h2 : shiftNode L { getNode d2 i with next := q } =
      { getNode d1 (i + L) with next := shiftPtr L q } := by
    rw [h.2.2.2.2.2 i]
    rfl
  rw [h2] at h1
  exact h1

theorem ShiftRel.setPrevR {L : Nat} {d1 d2 : OrderedDict K V} (h : ShiftRel L d1 d2)
    (i : Nat) (q : Option Nat) :
    ShiftRel L (setPrev d1 (i + L) (shiftPtr L q)) (setPrev d2 i q) := by
  have h1 := h.write i { getNode d2 i with prev := q }
  have h2 : shiftNode L { getNode d2 i with prev := q } =
      { getNode d1 (i + L) with prev := shiftPtr L q } := by
    rw [h.2.2.2.2.2 i]
    rfl
  rw [h2] at h1
  exact h1

theorem ShiftRel.setValR {L : Nat} {d1 d2 : OrderedDict K V} (h : ShiftRel L d1 d2)
    (i : Nat) (v : V) :
    ShiftRel L (setVal d1 (i + L) v) (setVal d2 i v) := by
  have h1 := h.write i { getNode d2 i with val := v }
  have h2 : shiftNode L { getNode d2 i with val := v } =
      { getNode d1 (i + L) with val := v } := by
    rw [h.2.2.2.2.2 i]
    rfl
  rw [h2] at h1
  exact h1

theorem ShiftRel.ptrSetNextR {L : Nat} {d1 d2 : OrderedDict K V} (h : ShiftRel L d1 d2)
    (p : Option Nat) (q : Option Nat) :
    ShiftRel L (ptrSetNext d1 (shiftPtr L p) (shiftPtr L q)) (ptrSetNext d2 p q) := by
  cases p with
  | none => exact h
  | some i =>
    show ShiftRel L (setNext d1 (i + L) (shiftPtr L q)) (setNext d2 i q)
    exact h.setNextR i q

theorem ShiftRel.ptrSetPrevR {L : Nat} {d1 d2 : OrderedDict K V} (h : ShiftRel L d1 d2)
    (p : Option Nat) (q : Option Nat) :
    ShiftRel L (ptrSetPrev d1 (shiftPtr L p) (shiftPtr L q)) (ptrSetPrev d2 p q) := by
  cases p with
  | none => exact h
  | some i =>
    show ShiftRel L (setPrev d1 (i + L) (shiftPtr L q)) (setPrev d2 i q)
    exact h.setPrevR i q

theorem ShiftRel.allocR {L : Nat} {d1 d2 : OrderedDict K V} (h : ShiftRel L d1 d2)
    (n : Node K V) :
    ShiftRel L (alloc d1 (shiftNode L n)).1 (alloc d2 n).1 ∧
    (alloc d1 (shiftNode L n)).2 = (alloc d2 n).2 + L := by
  obtain ⟨hlen, hhead, htail, hl, hdata, hget⟩ := h
  refine ⟨⟨by simp only [alloc_heap_length]; omega, by simpa using hhead,
    by simpa using htail, by simpa using hl, by simpa using hdata, ?_⟩,
    by exact hlen⟩
  intro j
  rw [getNode_alloc, getNode_alloc]
  by_cases hj : j = d2.heap.length
  · rw [if_pos hj, if_pos (by omega)]
  · rw [if_neg hj, if_neg (by omega)]
    exact hget j

theorem ShiftRel.mapGetR {L : Nat} {d1 d2 : OrderedDict K V} (h : ShiftRel L d1 d2)
    (k : K) : mapGet d1.data k = Option.map (· + L) (mapGet d2.data k) := by
  rw [h.2.2.2.2.1]
  induction d2.data with
  | nil => rfl
  | cons q rest ih =>
    obtain ⟨k', i⟩ := q
    show mapGet ((k', i + L) :: rest.map _) k = _
    rw [mapGet, mapGet]
    by_cases hk : k = k'
    · rw [if_pos hk, if_pos hk]
      rfl
    · rw [if_neg hk, if_neg hk]
      exact ih

theorem mapPut_shift (L : Nat) (m : List (K × Nat)) (k : K) (i : Nat) :
    mapPut (m.map fun q => (q.1, q.2 + L)) k (i + L) =
      (mapPut m k i).map fun q => (q.1, q.2 + L) := by
  induction m with
  | nil => rfl
  | cons q rest ih =>
    obtain ⟨k', j⟩ := q
    show mapPut ((k', j + L) :: rest.map _) k (i + L) = _
    rw [mapPut, mapPut]
    by_cases hk : k = k'
    · rw [if_pos hk, if_pos hk]
      rfl
    · rw [if_neg hk, if_neg hk]
      rw [List.map_cons, ih]

theorem mapDel_shift (L : Nat) (m : List (K × Nat)) (k : K) :
    mapDel (m.map fun q => (q.1, q.2 + L)) k =
      (mapDel m k).map fun q => (q.1, q.2 + L) := by
  induction m with
  | nil => rfl
  | cons q rest ih =>
    obtain ⟨k', j⟩ := q
    show mapDel ((k', j + L) :: rest.map _) k = _
    rw [mapDel, mapDel]
    by_cases hk : k = k'
    · rw [if_pos hk, if_pos hk]
    · rw [if_neg hk, if_neg hk]
      rw [List.map_cons, ih]

theorem walkChain_succ (d : OrderedDict K V) (f : Nat) (p : Option Nat) :
    walkChain d (f + 1) p =
      if p = some d.tail then []
      else
        match p with
        | some i => i :: walkChain d f (getNode d i).next
        | none => [] := rfl

theorem ShiftRel.walkR {L : Nat} {d1 d2 : OrderedDict K V}
    (h : ShiftRel L d1 d2) :
    ∀ (fuel : Nat) (p : Option Nat),
      walkChain d1 fuel (shiftPtr L p) = (walkChain d2 fuel p).map (· + L) := by
  intro fuel
  induction fuel with
  | zero => intro p; rfl
  | succ f ih =>
    intro p
    have htails : (shiftPtr L p = some d1.tail) ↔ (p = some d2.tail) := by
      rw [h.2.2.1]
      cases p with
      | none => simp [shiftPtr]
      | some x =>
        simp [shiftPtr]
    rw [walkChain_succ, walkChain_succ]
    by_cases hp : p = some d2.tail
    · rw [if_pos (htails.mpr hp), if_pos hp]
      rfl
    · rw [if_neg (fun hh => hp (htails.mp hh)), if_neg hp]
      cases p with
      | none => rfl
      | some x =>
        show (x + L) :: walkChain d1 f (getNode d1 (x + L)).next =
          (x :: walkChain d2 f (getNode d2 x).next).map (· + L)
        rw [List.map_cons]
        congr 1
        have h3 : (getNode d1 (x + L)).next = shiftPtr L (getNode d2 x).next := by
          rw [h.2.2.2.2.2 x]
          rfl
        rw [h3]
        exact ih (getNode d2 x).next

/-!  Observables are identical in shift-related states.  -/

theorem ShiftRel.walkFuelR {L : Nat} {d1 d2 : OrderedDict K V}
    (h : ShiftRel L d1 d2) : walkFuel d1 = walkFuel d2 := by
  obtain ⟨hlen, hhead, -, -, -, -⟩ := h
  simp only [walkFuel]
  omega

theorem ShiftRel.LenR {L : Nat} {d1 d2 : OrderedDict K V}
    (h : ShiftRel L d1 d2) : d1.Len = d2.Len := h.2.2.2.1

theorem ShiftRel.HasR {L : Nat} {d1 d2 : OrderedDict K V}
    (h : ShiftRel L d1 d2) (k : K) : d1.Has k = d2.Has k := by
  simp only [OrderedDict.Has]
  rw [h.mapGetR k]
  cases mapGet d2.data k <;> rfl

theorem ShiftRel.GetR {L : Nat} {d1 d2 : OrderedDict K V}
    (h : ShiftRel L d1 d2) (k : K) : d1.Get k = d2.Get k := by
  simp only [OrderedDict.Get]
  rw [h.mapGetR k]
  cases mapGet d2.data k with
  | none => rfl
  | some i =>
    show ((getNode d1 (i + L)).val, true) = ((getNode d2 i).val, true)
    rw [h.2.2.2.2.2 i]
    rfl

theorem ShiftRel.headWalkR {L : Nat} {d1 d2 : OrderedDict K V}
    (h : ShiftRel L d1 d2) :
    walkChain d1 (walkFuel d1) (getNode d1 d1.head).next =
      (walkChain d2 (walkFuel d2) (getNode d2 d2.head).next).map (· + L) := by
  have e : (getNode d1 d1.head).next = shiftPtr L (getNode d2 d2.head).next := by
    rw [h.2.1, h.2.2.2.2.2 d2.head]
    rfl
  rw [e, h.walkFuelR]
  exact h.walkR (walkFuel d2) (getNode d2 d2.head).next

theorem ShiftRel.KeysR {L : Nat} {d1 d2 : OrderedDict K V}
    (h : ShiftRel L d1 d2) : d1.Keys = d2.Keys := by
  simp only [OrderedDict.Keys]
  rw [h.headWalkR, List.map_map]
  refine List.map_congr_left fun i _ => ?_
  show (getNode d1 (i + L)).key = (getNode d2 i).key
  rw [h.2.2.2.2.2 i]
  rfl

theorem ShiftRel.ValuesR {L : Nat} {d1 d2 : OrderedDict K V}
    (h : ShiftRel L d1 d2) : d1.Values = d2.Values := by
  simp only [OrderedDict.Values]
  rw [h.headWalkR, List.map_map]
  refine List.map_congr_left fun i _ => ?_
  show (getNode d1 (i + L)).val = (getNode d2 i).val
  rw [h.2.2.2.2.2 i]
  rfl

theorem ShiftRel.AllR {L : Nat} {d1 d2 : OrderedDict K V}
    (h : ShiftRel L d1 d2) : d1.All = d2.All := by
  simp only [OrderedDict.All]
  rw [h.headWalkR, List.map_map]
  refine List.map_congr_left fun i _ => ?_
  show ((getNode d1 (i + L)).key, (getNode d1 (i + L)).val)
    = ((getNode d2 i).key, (getNode d2 i).val)
  rw [h.2.2.2.2.2 i]
  rfl

/-!  Every mutating operation preserves the shift relation.  -/

theorem ShiftRel.linkToEndR {L : Nat} {d1 d2 : OrderedDict K V}
    (h : ShiftRel L d1 d2) (n : Nat) :
    ShiftRel L (d1.linkToEnd (n + L)) (d2.linkToEnd n) := by
  have hpt : (getNode d1 d1.tail).prev = shiftPtr L (getNode d2 d2.tail).prev := by
    rw [h.2.2.1, h.2.2.2.2.2 d2.tail]
    rfl
  simp only [OrderedDict.linkToEnd, setPrev_tail, setNext_tail, ptrSetNext_tail]
  rw [hpt, h.2.2.1]
  have h1 := h.setPrevR n (getNode d2 d2.tail).prev
  have h2 := h1.setNextR n (some d2.tail)
  have h3 := h2.ptrSetNextR (getNode d2 d2.tail).prev (some n)
  exact h3.setPrevR d2.tail (some n)

theorem ShiftRel.linkToStartR {L : Nat} {d1 d2 : OrderedDict K V}
    (h : ShiftRel L d1 d2) (n : Nat) :
    ShiftRel L (d1.linkToStart (n + L)) (d2.linkToStart n) := by
  have hpt : (getNode d1 d1.head).next = shiftPtr L (getNode d2 d2.head).next := by
    rw [h.2.1, h.2.2.2.2.2 d2.head]
    rfl
  simp only [OrderedDict.linkToStart, setPrev_head, setNext_head, ptrSetPrev_head]
  rw [hpt, h.2.1]
  have h1 := h.setNextR n (getNode d2 d2.head).next
  have h2 := h1.setPrevR n (some d2.head)
  have h3 := h2.ptrSetPrevR (getNode d2 d2.head).next (some n)
  exact h3.setNextR d2.head (some n)

theorem ShiftRel.linkAfterR {L : Nat} {d1 d2 : OrderedDict K V}
    (h : ShiftRel L d1 d2) (n a : Nat) :
    ShiftRel L (d1.linkAfter (n + L) (a + L)) (d2.linkAfter n a) := by
  have han : (getNode d1 (a + L)).next = shiftPtr L (getNode d2 a).next := by
    rw [h.2.2.2.2.2 a]
    rfl
  simp only [OrderedDict.linkAfter]
  rw [han]
  have h1 := h.setNextR n (getNode d2 a).next
  have h2 := h1.setPrevR n (some a)
  have h3 := h2.setNextR a (some n)
  exact h3.ptrSetPrevR (getNode d2 a).next (some n)

theorem ShiftRel.unlinkNodeR {L : Nat} {d1 d2 : OrderedDict K V}
    (h : ShiftRel L d1 d2) (n : Nat) :
    ShiftRel L (d1.unlinkNode (n + L)) (d2.unlinkNode n) := by
  simp only [OrderedDict.unlinkNode]
  have hp : (getNode d1 (n + L)).prev = shiftPtr L (getNode d2 n).prev := by
    rw [h.2.2.2.2.2 n]
    rfl
  have hn : (getNode d1 (n + L)).next = shiftPtr L (getNode d2 n).next := by
    rw [h.2.2.2.2.2 n]
    rfl
  rw [hp, hn]
  have h1 := h.ptrSetNextR (getNode d2 n).prev (getNode d2 n).next
  have hp2 : (getNode (ptrSetNext d1 (shiftPtr L (getNode d2 n).prev)
      (shiftPtr L (getNode d2 n).next)) (n + L)).prev
      = shiftPtr L (getNode (ptrSetNext d2 (getNode d2 n).prev
        (getNode d2 n).next) n).prev := by
    rw [h1.2.2.2.2.2 n]
    rfl
  have hn2 : (getNode (ptrSetNext d1 (shiftPtr L (getNode d2 n).prev)
      (shiftPtr L (getNode d2 n).next)) (n + L)).next
      = shiftPtr L (getNode (ptrSetNext d2 (getNode d2 n).prev
        (getNode d2 n).next) n).next := by
    rw [h1.2.2.2.2.2 n]
    rfl
  rw [hp2, hn2]
  exact h1.ptrSetPrevR (getNode (ptrSetNext d2 (getNode d2 n).prev
    (getNode d2 n).next) n).next (getNode (ptrSetNext d2 (getNode d2 n).prev
    (getNode d2 n).next) n).prev

/-- Closed form of `Set` on an absent key, for the simulation arguments. -/
theorem Set_absent_state (d : OrderedDict K V) (k : K) (v : V)
    (hget : mapGet d.data k = none) :
    d.Set k v =
      { (alloc d ⟨none, none, k, v⟩).1.linkToEnd d.heap.length with
        data := mapPut ((alloc d ⟨none, none, k, v⟩).1.linkToEnd
          d.heap.length).data k d.heap.length,
        len := ((alloc d ⟨none, none, k, v⟩).1.linkToEnd
          d.heap.length).len + 1 } := by
  unfold OrderedDict.Set
  rw [hget]
  rfl

/-- Closed form of `Delete` on a present key, for the simulation
arguments. -/
theorem Delete_some_state (d : OrderedDict K V) (k : K) (i : Nat)
    (hget : mapGet d.data k = some i) :
    d.Delete k =
      ({ d.unlinkNode i with
          data := mapDel (d.unlinkNode i).data k,
          len := (d.unlinkNode i).len - 1 },
        (getNode (d.unlinkNode i) i).val, true) := by
  unfold OrderedDict.Delete
  rw [hget]
  rfl

theorem ShiftRel.SetR {L : Nat} {d1 d2 : OrderedDict K V}
    (h : ShiftRel L d1 d2) (k : K) (v : V) :
    ShiftRel L (d1.Set k v) (d2.Set k v) := by
  have hg := h.mapGetR k
  cases hm : mapGet d2.data k with
  | some i =>
    have hm1 : mapGet d1.data k = some (i + L) := by
      rw [hg, hm]
      rfl
    rw [Set_present_state d1 k v _ hm1, Set_present_state d2 k v _ hm]
    exact h.setValR i v
  | none =>
    have hm1 : mapGet d1.data k = none := by
      rw [hg, hm]
      rfl
    rw [Set_absent_state d1 k v hm1, Set_absent_state d2 k v hm, h.1]
    have ha : ShiftRel L
        (alloc d1 ⟨none, none, k, v⟩).1
        (alloc d2 ⟨none, none, k, v⟩).1 :=
      (h.allocR ⟨none, none, k, v⟩).1
    have hl2 := ha.linkToEndR d2.heap.length
    obtain ⟨b1, b2, b3, b4, b5, b6⟩ := hl2
    refine ⟨b1, b2, b3, ?_, ?_, b6⟩
    · show ((alloc d1 ⟨none, none, k, v⟩).1.linkToEnd
          (d2.heap.length + L)).len + 1
        = ((alloc d2 ⟨none, none, k, v⟩).1.linkToEnd d2.heap.length).len + 1
      rw [b4]
    · show mapPut ((alloc d1 ⟨none, none, k, v⟩).1.linkToEnd
          (d2.heap.length + L)).data k (d2.heap.length + L)
        = List.map (fun q => (q.1, q.2 + L))
          (mapPut ((alloc d2 ⟨none, none, k, v⟩).1.linkToEnd
            d2.heap.length).data k d2.heap.length)
      rw [b5, mapPut_shift]

theorem ShiftRel.DeleteR {L : Nat} {d1 d2 : OrderedDict K V}
    (h : ShiftRel L d1 d2) (k : K) :
    ShiftRel L (d1.Delete k).1 (d2.Delete k).1 ∧
      (d1.Delete k).2.1 = (d2.Delete k).2.1 ∧
      (d1.Delete k).2.2 = (d2.Delete k).2.2 := by
  have hg := h.mapGetR k
  cases hm : mapGet d2.data k with
  | none =>
    have hm1 : mapGet d1.data k = none := by
      rw [hg, hm]
      rfl
    rw [Delete_absent d1 k hm1, Delete_absent d2 k hm]
    exact ⟨h, rfl, rfl⟩
  | some i =>
    have hm1 : mapGet d1.data k = some (i + L) := by
      rw [hg, hm]
      rfl
    rw [Delete_some_state d1 k _ hm1, Delete_some_state d2 k _ hm]
    have hu := h.unlinkNodeR i
    refine ⟨?_, ?_, rfl⟩
    · obtain ⟨a1, a2, a3, a4, a5, a6⟩ := hu
      refine ⟨a1, a2, a3, ?_, ?_, a6⟩
      · show (d1.unlinkNode (i + L)).len - 1 = (d2.unlinkNode i).len - 1
        rw [a4]
      · show mapDel (d1.unlinkNode (i + L)).data k
          = List.map (fun q => (q.1, q.2 + L)) (mapDel (d2.unlinkNode i).data k)
        rw [a5, mapDel_shift]
    · show (getNode (d1.unlinkNode (i + L)) (i + L)).val
        = (getNode (d2.unlinkNode i) i).val
      rw [hu.2.2.2.2.2 i]
      rfl

theorem ShiftRel.MoveToEndR {L : Nat} {d1 d2 : OrderedDict K V}
    (h : ShiftRel L d1 d2) (k : K) :
    ShiftRel L (d1.MoveToEnd k).1 (d2.MoveToEnd k).1 ∧
      (d1.MoveToEnd k).2 = (d2.MoveToEnd k).2 := by
  have hg := h.mapGetR k
  cases hm : mapGet d2.data k with
  | none =>
    have hm1 : mapGet d1.data k = none := by
      rw [hg, hm]
      rfl
    simp only [OrderedDict.MoveToEnd]
    rw [hm1, hm]
    exact ⟨h, rfl⟩
  | some i =>
    have hm1 : mapGet d1.data k = some (i + L) := by
      rw [hg, hm]
      rfl
    simp only [OrderedDict.MoveToEnd]
    rw [hm1, hm]
    exact ⟨(h.unlinkNodeR i).linkToEndR i, rfl⟩

theorem ShiftRel.MoveToStartR {L : Nat} {d1 d2 : OrderedDict K V}
    (h : ShiftRel L d1 d2) (k : K) :
    ShiftRel L (d1.MoveToStart k).1 (d2.MoveToStart k).1 ∧
      (d1.MoveToStart k).2 = (d2.MoveToStart k).2 := by
  have hg := h.mapGetR k
  cases hm : mapGet d2.data k with
  | none =>
    have hm1 : mapGet d1.data k = none := by
      rw [hg, hm]
      rfl
    simp only [OrderedDict.MoveToStart]
    rw [hm1, hm]
    exact ⟨h, rfl⟩
  | some i =>
    have hm1 : mapGet d1.data k = some (i + L) := by
      rw [hg, hm]
      rfl
    simp only [OrderedDict.MoveToStart]
    rw [hm1, hm]
    exact ⟨(h.unlinkNodeR i).linkToStartR i, rfl⟩

theorem ShiftRel.MoveAfterR {L : Nat} {d1 d2 : OrderedDict K V}
    (h : ShiftRel L d1 d2) (k a : K) :
    ShiftRel L (d1.MoveAfter k a).1 (d2.MoveAfter k a).1 ∧
      (d1.MoveAfter k a).2 = (d2.MoveAfter k a).2 := by
  have hga := h.mapGetR a
  have hgk := h.mapGetR k
  cases hma : mapGet d2.data a with
  | none =>
    have hma1 : mapGet d1.data a = none := by
      rw [hga, hma]
      rfl
    simp only [OrderedDict.MoveAfter]
    rw [hma1, hma]
    exact ⟨h, rfl⟩
  | some ia =>
    have hma1 : mapGet d1.data a = some (ia + L) := by
      rw [hga, hma]
      rfl
    cases hmk : mapGet d2.data k with
    | none =>
      have hmk1 : mapGet d1.data k = none := by
        rw [hgk, hmk]
        rfl
      simp only [OrderedDict.MoveAfter]
      rw [hma1, hma, hmk1, hmk]
      exact ⟨h, rfl⟩
    | some ik =>
      have hmk1 : mapGet d1.data k = some (ik + L) := by
        rw [hgk, hmk]
        rfl
      simp only [OrderedDict.MoveAfter]
      rw [hma1, hma, hmk1, hmk]
      exact ⟨(h.unlinkNodeR ik).linkAfterR ik ia, rfl⟩

/-- Reading past the end of the arena gives the zero node. -/
theorem getNode_oob (d : OrderedDict K V) {i : Nat}
    (h : d.heap.length ≤ i) : getNode d i = default :=
  List.getD_eq_default d.heap default h

theorem Clear_head (d : OrderedDict K V) :
    d.Clear.head = d.heap.length := rfl

theorem Clear_tail (d : OrderedDict K V) :
    d.Clear.tail = d.heap.length + 1 := by
  show (d.heap ++ [default]).length = d.heap.length + 1
  simp

theorem Clear_len (d : OrderedDict K V) : d.Clear.len = 0 := rfl

theorem Clear_data (d : OrderedDict K V) : d.Clear.data = [] := rfl

theorem Clear_heap_length (d : OrderedDict K V) :
    d.Clear.heap.length = d.heap.length + 2 := by
  simp only [OrderedDict.Clear, setNext, setPrev, writeNode, alloc,
    List.length_set, List.length_append, List.length_cons, List.length_nil]

/-- The arena after `Clear`: two fresh mutually linked sentinels on top of
the old cells. -/
theorem getNode_Clear (d : OrderedDict K V) (j : Nat) :
    getNode d.Clear j =
      if j = d.heap.length then
        (⟨none, some (d.heap.length + 1), default, default⟩ : Node K V)
      else if j = d.heap.length + 1 then
        (⟨some d.heap.length, none, default, default⟩ : Node K V)
      else getNode d j := by
  let o1 : OrderedDict K V :=
    { (alloc d default).1 with head := (alloc d default).2 }
  let o2 : OrderedDict K V :=
    { (alloc o1 default).1 with tail := (alloc o1 default).2 }
  let o3 : OrderedDict K V := setNext o2 o2.head (some o2.tail)
  let o4 : OrderedDict K V := setPrev o3 o3.tail (some o3.head)
  have hmain : getNode d.Clear j = getNode o4 j := rfl
  have hh2 : o2.head = d.heap.length := rfl
  have ht2 : o2.tail = d.heap.length + 1 := by
    show (d.heap ++ [default]).length = d.heap.length + 1
    simp
  have hlen2 : o2.heap.length = d.heap.length + 2 := by
    show (d.heap ++ [default] ++ [default]).length = d.heap.length + 2
    simp
  have hget2 : ∀ i, getNode o2 i =
      if i = d.heap.length then default
      else if i = d.heap.length + 1 then default
      else getNode d i := by
    intro i
    have e1 : getNode o2 i = getNode (alloc o1 default).1 i := rfl
    have e2 : o1.heap.length = d.heap.length + 1 := by
      show (d.heap ++ [default]).length = d.heap.length + 1
      simp
    have e3 : getNode o1 i = getNode (alloc d default).1 i := rfl
    rw [e1, getNode_alloc, e2, e3, getNode_alloc]
    by_cases h1 : i = d.heap.length
    · simp [h1]
    · by_cases h2 : i = d.heap.length + 1
      · simp [h1, h2]
      · simp [h1, h2]
  have ht3 : o3.tail = d.heap.length + 1 := ht2
  have hh3 : o3.head = d.heap.length := rfl
  have hlen3 : o3.heap.length = d.heap.length + 2 := by
    show (setNext o2 o2.head (some o2.tail)).heap.length = d.heap.length + 2
    rw [setNext_heap_length]
    exact hlen2
  have hget3 : ∀ i, getNode o3 i =
      if i = d.heap.length then
        (⟨none, some (d.heap.length + 1), default, default⟩ : Node K V)
      else getNode o2 i := by
    intro i
    have e : getNode o3 i = if o2.head = i ∧ o2.head < o2.heap.length
        then { getNode o2 o2.head with next := some o2.tail }
        else getNode o2 i := by
      show getNode (setNext o2 o2.head (some o2.tail)) i = _
      rw [getNode_setNext]
    rw [e]
    by_cases h1 : i = d.heap.length
    · rw [if_pos ⟨hh2.trans h1.symm, by rw [hh2, hlen2]; omega⟩, if_pos h1]
      rw [hh2, hget2, if_pos rfl, ht2]
      rfl
    · have hne : ¬(o2.head = i ∧ o2.head < o2.heap.length) := fun hc =>
        h1 ((hh2.symm.trans hc.1).symm)
      rw [if_neg hne, if_neg h1]
  have e4 : getNode o4 j = if o3.tail = j ∧ o3.tail < o3.heap.length
      then { getNode o3 o3.tail with prev := some o3.head }
      else getNode o3 j := by
    show getNode (setPrev o3 o3.tail (some o3.head)) j = _
    rw [getNode_setPrev]
  rw [hmain, e4]
  by_cases hj2 : j = d.heap.length + 1
  · rw [if_pos ⟨ht3.trans hj2.symm, by rw [ht3, hlen3]; omega⟩]
    rw [if_neg (by omega), if_pos hj2]
    rw [ht3, hget3, if_neg (by omega), hget2]
    rw [if_neg (by omega), if_pos rfl, hh3]
    rfl
  · have hne : ¬(o3.tail = j ∧ o3.tail < o3.heap.length) := fun hc =>
      hj2 ((ht3.symm.trans hc.1).symm)
    rw [if_neg hne, hget3]
    by_cases hj1 : j = d.heap.length
    · rw [if_pos hj1, if_pos hj1]
    · rw [if_neg hj1, if_neg hj1, if_neg hj2, hget2]
      rw [if_neg hj1, if_neg hj2]

theorem ShiftRel.ClearR {L : Nat} {d1 d2 : OrderedDict K V}
    (h : ShiftRel L d1 d2) : ShiftRel L d1.Clear d2.Clear := by
  obtain ⟨hlen, hhead, htail, hl, hdata, hget⟩ := h
  refine ⟨?_, ?_, ?_, ?_, ?_, ?_⟩
  · rw [Clear_heap_length, Clear_heap_length]
    omega
  · rw [Clear_head, Clear_head]
    omega
  · rw [Clear_tail, Clear_tail]
    omega
  · rw [Clear_len, Clear_len]
  · rw [Clear_data, Clear_data]
    rfl
  · intro j
    rw [getNode_Clear, getNode_Clear]
    by_cases h1 : j = d2.heap.length
    · rw [if_pos (by omega), if_pos h1]
      show (⟨none, some (d1.heap.length + 1), default, default⟩ : Node K V) =
        ⟨none, some (d2.heap.length + 1 + L), default, default⟩
      rw [show d1.heap.length + 1 = d2.heap.length + 1 + L from by omega]
    · by_cases h2 : j = d2.heap.length + 1
      · rw [if_neg (by omega), if_pos (by omega), if_neg h1, if_pos h2]
        show (⟨some d1.heap.length, none, default, default⟩ : Node K V) =
          ⟨some (d2.heap.length + L), none, default, default⟩
        rw [show d1.heap.length = d2.heap.length + L from hlen]
      · rw [if_neg (by omega), if_neg (by omega), if_neg h1, if_neg h2]
        exact hget j

/-- `Clear` leaves a state that is the fresh container shifted up by the
length of the old arena. -/
theorem Clear_shiftRel_New (d : OrderedDict K V) :
    ShiftRel d.heap.length d.Clear (New : OrderedDict K V) := by
  refine ⟨?_, ?_, ?_, rfl, rfl, ?_⟩
  · rw [Clear_heap_length]
    show d.heap.length + 2 = 2 + d.heap.length
    omega
  · rw [Clear_head]
    show d.heap.length = 0 + d.heap.length
    omega
  · rw [Clear_tail]
    show d.heap.length + 1 = 1 + d.heap.length
    omega
  · intro j
    rw [getNode_Clear]
    match j with
    | 0 =>
      rw [if_pos (by omega)]
      show (⟨none, some (d.heap.length + 1), default, default⟩ : Node K V) =
        ⟨none, some (1 + d.heap.length), default, default⟩
      rw [Nat.add_comm]
    | 1 =>
      rw [if_neg (by omega), if_pos (by omega)]
      show (⟨some d.heap.length, none, default, default⟩ : Node K V) =
        ⟨some (0 + d.heap.length), none, default, default⟩
      rw [Nat.zero_add]
    | n + 2 =>
      rw [if_neg (by omega), if_neg (by omega)]
      rw [getNode_oob d (by omega)]
      rw [show getNode (New : OrderedDict K V) (n + 2) = default from
        getNode_oob New (by show 2 ≤ n + 2; omega)]
      rfl

/-- All public operations of the primary variant, as commands (the
constructor list extends `Cmd2` with `Clear` and the three reordering
operations). -/
inductive Cmd (K V : Type) where
  | setC (k : K) (v : V)
  | getC (k : K)
  | deleteC (k : K)
  | removeC (k : K)
  | lenC
  | hasC (k : K)
  | keysC
  | valuesC
  | allC
  | clearC
  | moveToEndC (k : K)
  | moveToStartC (k : K)
  | moveAfterC (k a : K)
deriving DecidableEq

/-- One public operation of the primary variant, on state and output. -/
def stepF (d : OrderedDict K V) : Cmd K V → OrderedDict K V × Output K V
  | .setC k v => (d.Set k v, .unitO)
  | .getC k => (d, .valBoolO (d.Get k))
  | .deleteC k => ((d.Delete k).1, .valBoolO ((d.Delete k).2.1, (d.Delete k).2.2))
  | .removeC k => ((d.Remove k).1, .boolO (d.Remove k).2)
  | .lenC => (d, .intO d.Len)
  | .hasC k => (d, .boolO (d.Has k))
  | .keysC => (d, .keysO d.Keys)
  | .valuesC => (d, .valsO d.Values)
  | .allC => (d, .pairsO d.All)
  | .clearC => (d.Clear, .unitO)
  | .moveToEndC k => ((d.MoveToEnd k).1, .boolO (d.MoveToEnd k).2)
  | .moveToStartC k => ((d.MoveToStart k).1, .boolO (d.MoveToStart k).2)
  | .moveAfterC k a => ((d.MoveAfter k a).1, .boolO (d.MoveAfter k a).2)

/-- Run a sequence of public operations, collecting the final state and
every returned value. -/
def runF : OrderedDict K V → List (Cmd K V) →
    OrderedDict K V × List (Output K V)
  | d, [] => (d, [])
  | d, c :: cs =>
    let r := stepF d c
    let rest := runF r.1 cs
    (rest.1, r.2 :: rest.2)

theorem ShiftRel.stepR {L : Nat} {d1 d2 : OrderedDict K V}
    (h : ShiftRel L d1 d2) (c : Cmd K V) :
    ShiftRel L (stepF d1 c).1 (stepF d2 c).1 ∧
      (stepF d1 c).2 = (stepF d2 c).2 := by
  cases c with
  | setC k v => exact ⟨h.SetR k v, rfl⟩
  | getC k =>
    refine ⟨h, ?_⟩
    show Output.valBoolO (d1.Get k) = Output.valBoolO (d2.Get k)
    rw [h.GetR k]
  | deleteC k =>
    obtain ⟨hs, hv, hb⟩ := h.DeleteR k
    refine ⟨hs, ?_⟩
    show Output.valBoolO ((d1.Delete k).2.1, (d1.Delete k).2.2)
      = Output.valBoolO ((d2.Delete k).2.1, (d2.Delete k).2.2)
    rw [hv, hb]
  | removeC k =>
    obtain ⟨hs, -, hb⟩ := h.DeleteR k
    refine ⟨hs, ?_⟩
    show Output.boolO (d1.Delete k).2.2 = Output.boolO (d2.Delete k).2.2
    rw [hb]
  | lenC => exact ⟨h, congrArg Output.intO h.LenR⟩
  | hasC k => exact ⟨h, congrArg Output.boolO (h.HasR k)⟩
  | keysC => exact ⟨h, congrArg Output.keysO h.KeysR⟩
  | valuesC => exact ⟨h, congrArg Output.valsO h.ValuesR⟩
  | allC => exact ⟨h, congrArg Output.pairsO h.AllR⟩
  | clearC => exact ⟨h.ClearR, rfl⟩
  | moveToEndC k =>
    obtain ⟨hs, hb⟩ := h.MoveToEndR k
    exact ⟨hs, congrArg Output.boolO hb⟩
  | moveToStartC k =>
    obtain ⟨hs, hb⟩ := h.MoveToStartR k
    exact ⟨hs, congrArg Output.boolO hb⟩
  | moveAfterC k a =>
    obtain ⟨hs, hb⟩ := h.MoveAfterR k a
    exact ⟨hs, congrArg Output.boolO hb⟩

theorem ShiftRel.runR {L : Nat} (cs : List (Cmd K V)) :
    ∀ {d1 d2 : OrderedDict K V}, ShiftRel L d1 d2 →
      (runF d1 cs).2 = (runF d2 cs).2 := by
  induction cs with
  | nil =>
    intro d1 d2 h
    rfl
  | cons c cs ih =>
    intro d1 d2 h
    obtain ⟨hs, ho⟩ := h.stepR c
    show (stepF d1 c).2 :: (runF (stepF d1 c).1 cs).2 =
      (stepF d2 c).2 :: (runF (stepF d2 c).1 cs).2
    rw [ho, ih hs]

/-- Claim C8: after `Clear()` the container is observationally
indistinguishable from a freshly constructed empty container: its count is
`0`, `Keys()` and `Values()` are empty, `Get`/`Has` fail for every key, and
every subsequent sequence of public operations returns exactly the outputs
it returns when run from `New` (in particular `Clear` followed by any `Set`
behaves as a fresh container with that `Set` applied). -/
theorem C8_Clear_fresh (d : OrderedDict K V) :
    d.Clear.Len = 0 ∧ d.Clear.Keys = [] ∧ d.Clear.Values = [] ∧
    (∀ k : K, d.Clear.Get k = (default, false) ∧ d.Clear.Has k = false) ∧
    ∀ cs : List (Cmd K V),
      (runF d.Clear cs).2 = (runF (New : OrderedDict K V) cs).2 := by
  have h := Clear_shiftRel_New d
  refine ⟨h.LenR, ?_, ?_, ?_, ?_⟩
  · rw [h.KeysR]
    rfl
  · rw [h.ValuesR]
    rfl
  · intro k
    refine ⟨?_, ?_⟩
    · rw [h.GetR k]
      rfl
    · rw [h.HasR k]
      rfl
  · intro cs
    exact ShiftRel.runR cs h
